import Mathlib

/-!
Rendering of pipeline-run manifests (`server/rendering.go`)

A shallow embedding of `RenderPipelineRuns` and `RenderOutputData` and of the
pieces of the Go standard library they call, followed by theorems about them.

Modelling conventions.

* A Go `string` is the list of its characters (`Str`), as the conversion to
  `[]rune` yields them; the strings of a request are valid UTF-8.  The
  separators the source splits on (`,`, `=`, `;`) are single ASCII characters,
  so splitting the character list agrees with splitting the UTF-8 bytes.  The
  slice `CommitId[0:4]` counts bytes: `takeBytes` follows the UTF-8 encoding.
* A run-time panic (index out of range, slice bounds out of range) is the
  result `none`; the whole call then has no result.
* `time.Now()` and the environment variable `PIPELINE_WORKSPACE` are inputs
  of the embedding (`dt`, `pipelineNamespace`).
* The `fmt.Println` inside the list-parameter loop only writes to standard
  output and is left out; the result of `RenderOutputData` is the text it
  prints.
* `sthingsBase.UniqueSlice` and `sthingsBase.RenderTemplateInline` belong to
  another module and are modelled from the specification.
-/

namespace Rendering

/-- A Go string, as the list of its characters. -/
abbrev Str := List Char

/-! ## The pieces of the Go standard library that are used -/

/-- The predicate `unicode.IsSpace`: the characters Go treats as white space. -/
def isSpace (c : Char) : Bool :=
  let n := c.toNat
  (9 ≤ n && n ≤ 13) || n = 32 || n = 133 || n = 160 || n = 5760 ||
    (8192 ≤ n && n ≤ 8202) || n = 8232 || n = 8233 || n = 8239 || n = 8287 || n = 12288

/-- The function `strings.TrimSpace`: leading and trailing white space removed. -/
def TrimSpace (s : Str) : Str :=
  ((s.dropWhile isSpace).reverse.dropWhile isSpace).reverse

/-- One pass of `strings.Split` for a one-character separator: the segment
before the first separator, and the segments after it. -/
def splitAux (sep : Char) : Str → Str × List Str
  | [] => ([], [])
  | c :: cs =>
    let r := splitAux sep cs
    if c = sep then ([], r.1 :: r.2) else (c :: r.1, r.2)

/-- The function `strings.Split(s, sep)` for a one-character separator (every
call in the source passes `","`, `"="` or `";"`).  The result is never empty:
`Split "" sep` is `[""]`. -/
def Split (s : Str) (sep : Char) : List Str :=
  (splitAux sep s).1 :: (splitAux sep s).2

/-- The little-endian decimal digits of `n`, by recursion on a fuel argument. -/
def digitsFuel : Nat → Nat → List Nat
  | 0, _ => []
  | fuel + 1, n => if n = 0 then [] else (n % 10) :: digitsFuel fuel (n / 10)

/-- The decimal rendering of a natural number (`strconv.FormatUint(n, 10)`). -/
def formatNat (n : Nat) : Str :=
  if n = 0 then ['0'] else ((digitsFuel n n).reverse.map Nat.digitChar)

/-- The call `fmt.Sprintf("%v", i)` for an integer `i`: its decimal rendering,
with a leading `-` when negative. -/
def Sprintf (i : Int) : Str :=
  match i with
  | Int.ofNat n => formatNat n
  | Int.negSucc n => '-' :: formatNat (n + 1)

/-- Two decimal digits, zero padded: the layout elements `02`, `04` and `05`
of `time.Format`. -/
def pad2 (n : Nat) : Str :=
  [Nat.digitChar (n / 10 % 10), Nat.digitChar (n % 10)]

/-- The fields of `time.Time` that the layout `"020405"` reads. -/
structure Time where
  Day : Nat
  Minute : Nat
  Second : Nat
  day_ok : 1 ≤ Day ∧ Day ≤ 31
  minute_ok : Minute < 60
  second_ok : Second < 60

/-- The call `dt.Format("020405")`: day of month, minute, second, two digits
each. -/
def Time.Format020405 (dt : Time) : Str :=
  pad2 dt.Day ++ pad2 dt.Minute ++ pad2 dt.Second

/-- The number of bytes of the UTF-8 encoding of a character. -/
def utf8Len (c : Char) : Nat :=
  if c.toNat < 128 then 1 else if c.toNat < 2048 then 2 else if c.toNat < 65536 then 3 else 4

/-- The length `len(s)` of a Go string: the number of its bytes. -/
def byteLength (s : Str) : Nat := (s.map utf8Len).sum

/-- The character U+FFFD, as which Go reads a byte that is not part of a valid
encoding. -/
def runeError : Char := Char.ofNat 65533

/-- The slice expression `s[0:n]`, which counts bytes.  It panics when `s` has
fewer than `n` bytes.  When the cut falls inside the encoding of a character,
the bytes of that character before the cut are no valid encoding: each of
them is one U+FFFD in the list of characters of the result. -/
def takeBytes : Str → Nat → Option Str
  | _, 0 => some []
  | [], _ + 1 => none
  | c :: cs, n + 1 =>
    if utf8Len c ≤ n + 1 then (takeBytes cs (n + 1 - utf8Len c)).map (fun t => c :: t)
    else some (List.replicate (n + 1) runeError)

/-- The slice expression `s[0:4]`: the first 4 bytes of `s`. -/
def slice04 (s : Str) : Option Str := takeBytes s 4

/-! ## Go maps -/

/-- A Go map, as an association list with distinct keys.  The order of the
list is the order in which the keys were first stored; Go itself gives a map
no order. -/
abbrev GoMap (κ : Type) (α : Type) := List (κ × α)

/-- The map read `m[k]` with the comma-ok form. -/
def GoMap.read {κ α : Type} [DecidableEq κ] : GoMap κ α → κ → Option α
  | [], _ => none
  | (k1, v1) :: rest, k => if k1 = k then some v1 else GoMap.read rest k

/-- The map store `m[k] = v`. -/
def GoMap.store {κ α : Type} [DecidableEq κ] : GoMap κ α → κ → α → GoMap κ α
  | [], k, v => [(k, v)]
  | (k1, v1) :: rest, k, v =>
    if k1 = k then (k1, v) :: rest else (k1, v1) :: GoMap.store rest k v

/-- The keys of a map. -/
def GoMap.domain {κ α : Type} (m : GoMap κ α) : List κ := m.map Prod.fst

/-! ## The data model of `rendering.go` -/

/-- The struct `Workspace`; the fields are in the order of the declaration,
which is the order a positional struct literal fills them in. -/
structure Workspace where
  Name : Str
  WorkspaceKind : Str
  WorkspaceRef : Str
  WorkspaceKindShortName : Str
  deriving DecidableEq, Repr

/-- The struct `PipelineRun`: the record the manifest template is executed on. -/
structure PipelineRun where
  Name : Str
  RevisionRunAuthor : Str
  RevisionRunRepoName : Str
  RevisionRunRepoUrl : Str
  RevisionRunCommitId : Str
  RevisionRunCreation : Str
  Namespace : Str
  PipelineRef : Str
  ServiceAccount : Str
  Timeout : Str
  Params : GoMap Str Str
  ListParams : GoMap Str (List Str)
  Workspaces : List Workspace
  NamePrefix : Str
  NameSuffix : Str
  Stage : Str
  deriving DecidableEq, Repr

/-- Modelled from the spec: the message type `revisionrun.Pipelinerun` is
declared in another module; these are the fields the source reads.  The spec
calls the stage an integer label, so `Stage` is an integer and the conversion
`int(pipelinerun.Stage)` is the identity. -/
structure Pipelinerun where
  Name : Str
  Stage : Int
  Params : Str
  Listparams : Str
  Workspaces : Str
  deriving DecidableEq, Repr

/-- Modelled from the spec: the message type
`revisionrun.CreateRevisionRunRequest` is declared in another module; these
are the fields the source reads. -/
structure CreateRevisionRunRequest where
  Author : Str
  PushedAt : Str
  CommitId : Str
  RepoUrl : Str
  RepoName : Str
  Pipelineruns : List Pipelinerun
  deriving DecidableEq, Repr

/-! ## The parsing loops of `RenderPipelineRuns` -/

/-- The loop of lines 134-140 over the entries `paramValues`, started on the
map `m`: each entry is split on `=`, and `values[0]`, `values[1]` are stored
trimmed.  Reading `values[1]` panics when the entry has no `=`. -/
def pipelineParams : List Str → GoMap Str Str → Option (GoMap Str Str)
  | [], m => some m
  | v :: rest, m =>
    match Split v '=' with
    | k :: x :: _ => pipelineParams rest (m.store (TrimSpace k) (TrimSpace x))
    | _ => none

/-- The loop of lines 142-152 over the entries of the list-params encoding:
`keyValues[1]` is trimmed and split on `;`, and the pieces are stored under
the trimmed `keyValues[0]`. -/
def listPipelineParams : List Str → GoMap Str (List Str) → Option (GoMap Str (List Str))
  | [], m => some m
  | v :: rest, m =>
    match Split v '=' with
    | k :: x :: _ =>
      listPipelineParams rest (m.store (TrimSpace k) (Split (TrimSpace x) ';'))
    | _ => none

/-- The loop of lines 156-160 over the entries of the workspaces encoding,
started on the slice `acc`.  The struct literal is positional: the three
pieces of `values[1]` fill `WorkspaceKind`, `WorkspaceRef` and
`WorkspaceKindShortName`, in this order. -/
def pipelineWorkspaces : List Str → List Workspace → Option (List Workspace)
  | [], acc => some acc
  | v :: rest, acc =>
    match Split v '=' with
    | n :: x :: _ =>
      match Split x ';' with
      | w0 :: w1 :: w2 :: _ =>
        pipelineWorkspaces rest
          (acc ++ [Workspace.mk (TrimSpace n) (TrimSpace w0) (TrimSpace w1) (TrimSpace w2)])
      | _ => none
    | _ => none

/-! ## Executing the manifest template -/

/-- The byte order of Go strings, on characters (UTF-8 keeps the order of the
code points). -/
def strLt : Str → Str → Bool
  | [], [] => false
  | [], _ :: _ => true
  | _ :: _, [] => false
  | a :: s, b :: t =>
    if a.toNat < b.toNat then true else if a.toNat = b.toNat then strLt s t else false

/-- Insertion of one entry into a list of entries sorted by key. -/
def insertByKey {α : Type} (e : Str × α) : List (Str × α) → List (Str × α)
  | [] => [e]
  | f :: rest => if strLt f.1 e.1 then f :: insertByKey e rest else e :: f :: rest

/-- The entries of a map in sorted key order: the order in which
`text/template` visits a map in `range`. -/
def sortedEntries {α : Type} (m : GoMap Str α) : List (Str × α) :=
  m.foldr insertByKey []

/-- The value of `.NamePrefix-.Stage-.Name-.NameSuffix`, line 62 of the
template. -/
def metadataName (pr : PipelineRun) : Str :=
  pr.NamePrefix ++ "-".toList ++ pr.Stage ++ "-".toList ++ pr.Name ++ "-".toList ++ pr.NameSuffix

/-- The text of the template up to the opening quote of the metadata name. -/
def templateHead : Str :=
  "\napiVersion: tekton.dev/v1beta1\nkind: PipelineRun\nmetadata:\n  name: \"".toList

/-- Lines 62-76 of the template after the metadata name, up to `params:`. -/
def templateLabels (pr : PipelineRun) : Str :=
  "\"\n  namespace: ".toList ++ pr.Namespace ++
  "\n  labels:\n    argocd.argoproj.io/instance: tekton-runs\n    stagetime/commit: \"".toList ++
  pr.RevisionRunCommitId ++
  "\"\n    stagetime/repo: ".toList ++ pr.RevisionRunRepoName ++
  "\n    stagetime/author: ".toList ++ pr.RevisionRunAuthor ++
  "\n    stagetime/stage: \"".toList ++ pr.Stage ++
  "\"\n    tekton.dev/pipeline: ".toList ++ pr.PipelineRef ++
  "\nspec:\n  serviceAccountName: ".toList ++ pr.ServiceAccount ++
  "\n  timeout: ".toList ++ pr.Timeout ++
  "\n  pipelineRef:\n    name: ".toList ++ pr.PipelineRef ++
  "\n  params:".toList

/-- The body of the `range` over `.Params`, lines 76-78, for one entry. -/
def templateParam (e : Str × Str) : Str :=
  "\n  - name: ".toList ++ e.1 ++ "\n    value: ".toList ++ e.2

/-- The body of the `range` over `.ListParams`, lines 78-81, for one entry. -/
def templateListParam (e : Str × List Str) : Str :=
  "\n  - name: ".toList ++ e.1 ++ "\n    value: ".toList ++
    (e.2.map (fun v => "\n      - ".toList ++ v)).flatten

/-- The body of the `range` over `.Workspaces`, lines 82-85, for one entry. -/
def templateWorkspace (w : Workspace) : Str :=
  "\n  - name: ".toList ++ w.Name ++ "\n    ".toList ++ w.WorkspaceKind ++
    ":\n      ".toList ++ w.WorkspaceKindShortName ++ ": ".toList ++ w.WorkspaceRef

/-- The `params:` section: the scalar parameters, then, when the map of list
parameters is non-empty, the list parameters, both in sorted key order. -/
def templateParams (pr : PipelineRun) : Str :=
  ((sortedEntries pr.Params).map templateParam).flatten ++
    (if pr.ListParams.isEmpty then []
     else ((sortedEntries pr.ListParams).map templateListParam).flatten)

/-- The `workspaces:` section, up to the end of the template. -/
def templateWorkspaces (pr : PipelineRun) : Str :=
  "\n  workspaces:".toList ++ (pr.Workspaces.map templateWorkspace).flatten ++ "\n".toList

/-- The call `tmpl.Execute(&buf, pr)` on `PipelineRunTemplate`.  Every field
the template names exists in `PipelineRun`, so execution has no error. -/
def PipelineRunTemplate (pr : PipelineRun) : Str :=
  templateHead ++ metadataName pr ++ templateLabels pr ++ templateParams pr ++
    templateWorkspaces pr

/-! ## `RenderPipelineRuns` -/

/-- Lines 126-181 of the loop body: the three encodings of one invocation are
parsed and the record `pr` is built. -/
def buildPipelineRun (pipelineNamespace : Str) (dt : Time)
    (gRPCRequest : CreateRevisionRunRequest) (pipelinerun : Pipelinerun) :
    Option PipelineRun :=
  match pipelineParams (Split pipelinerun.Params ',') [] with
  | none => none
  | some params =>
    match listPipelineParams (Split pipelinerun.Listparams ',') [] with
    | none => none
    | some listParams =>
      match pipelineWorkspaces (Split pipelinerun.Workspaces ',') [] with
      | none => none
      | some workspaces =>
        match slice04 gRPCRequest.CommitId with
        | none => none
        | some commit4 =>
          some {
            Name := pipelinerun.Name
            RevisionRunAuthor := gRPCRequest.Author
            RevisionRunCreation := gRPCRequest.PushedAt
            RevisionRunCommitId := gRPCRequest.CommitId
            RevisionRunRepoUrl := gRPCRequest.RepoUrl
            RevisionRunRepoName := gRPCRequest.RepoName
            Namespace := pipelineNamespace
            PipelineRef := pipelinerun.Name
            ServiceAccount := "default".toList
            Timeout := "1h".toList
            Params := params
            ListParams := listParams
            Stage := Sprintf pipelinerun.Stage
            NamePrefix := "st".toList
            NameSuffix := dt.Format020405 ++ commit4
            Workspaces := workspaces }

/-- The rendered manifest of one invocation: the record is built and the
template executed on it. -/
def renderManifest (pipelineNamespace : Str) (dt : Time)
    (gRPCRequest : CreateRevisionRunRequest) (pipelinerun : Pipelinerun) : Option Str :=
  (buildPipelineRun pipelineNamespace dt gRPCRequest pipelinerun).map PipelineRunTemplate

/-- The statement of line 198: the manifest is appended to the bucket of its
stage (a missing bucket reads as the empty slice). -/
def appendToStage (m : GoMap Int (List Str)) (stage : Int) (manifest : Str) :
    GoMap Int (List Str) :=
  m.store stage ((m.read stage).getD [] ++ [manifest])

/-- The loop of lines 122-200 over the invocations, on the state
`(renderedPipelineruns, allStages)`. -/
def renderLoop (pipelineNamespace : Str) (dt : Time) (gRPCRequest : CreateRevisionRunRequest) :
    List Pipelinerun → GoMap Int (List Str) × List Str →
      Option (GoMap Int (List Str) × List Str)
  | [], state => some state
  | pipelinerun :: rest, (renderedPipelineruns, allStages) =>
    let allStages := allStages ++ [Sprintf pipelinerun.Stage]
    match renderManifest pipelineNamespace dt gRPCRequest pipelinerun with
    | none => none
    | some manifest =>
      renderLoop pipelineNamespace dt gRPCRequest rest
        (appendToStage renderedPipelineruns pipelinerun.Stage manifest, allStages)

/-- Modelled from the spec: `sthingsBase.UniqueSlice` belongs to another
module.  The spec has the distinct-stage list keep the first-seen order with
no duplicate: a label is kept when it is not among the labels already kept. -/
def UniqueSlice (s : List Str) : List Str :=
  s.foldl (fun result str => if str ∈ result then result else result ++ [str]) []

/-- The function `RenderPipelineRuns`.  The result is `none` when the call
panics. -/
def RenderPipelineRuns (pipelineNamespace : Str) (dt : Time)
    (gRPCRequest : CreateRevisionRunRequest) : Option (GoMap Int (List Str) × List Str) :=
  match renderLoop pipelineNamespace dt gRPCRequest gRPCRequest.Pipelineruns ([], []) with
  | none => none
  | some (renderedPipelineruns, allStages) =>
    some (renderedPipelineruns, UniqueSlice allStages)

/-- The bucket `renderedPipelineruns[s]` of a result; a stage without bucket
reads as the empty slice. -/
def bucket (m : GoMap Int (List Str)) (s : Int) : List Str := (m.read s).getD []

/-! ## Encodings in the form the specification describes -/

/-- The encoding of a list of entries: the entries joined by the comma. -/
def joinEntries (entries : List Str) : Str := List.intercalate [','] entries

/-- A scalar-params entry `k=v`. -/
def paramEntry (kv : Str × Str) : Str := kv.1 ++ '=' :: kv.2

/-- A list-params entry `k=v1;v2;...;vn`. -/
def listParamEntry (kvs : Str × List Str) : Str :=
  kvs.1 ++ '=' :: (List.intercalate [';'] kvs.2)

/-- The four fields of a workspace entry, in the order of the encoding: the
part before the `=`, then the three parts separated by `;`. -/
structure WorkspaceFields where
  name : Str
  first : Str
  second : Str
  third : Str
  deriving DecidableEq, Repr

/-- A workspaces entry `n=a;b;c`. -/
def workspaceEntry (w : WorkspaceFields) : Str :=
  w.name ++ '=' :: (w.first ++ ';' :: (w.second ++ ';' :: w.third))

/-- None of the three separators occurs in the string. -/
def noSeparator (s : Str) : Prop := ',' ∉ s ∧ '=' ∉ s ∧ ';' ∉ s

instance (s : Str) : Decidable (noSeparator s) := by
  unfold noSeparator; infer_instance

/-- The fields of a workspace entry are free of the separators. -/
def WorkspaceFields.clean (w : WorkspaceFields) : Prop :=
  noSeparator w.name ∧ noSeparator w.first ∧ noSeparator w.second ∧ noSeparator w.third

instance (w : WorkspaceFields) : Decidable w.clean := by
  unfold WorkspaceFields.clean; infer_instance

/-- The binding the source builds from the fields of an entry: the first part
after the `=` is the kind, the second the reference, the third the
short-name. -/
def WorkspaceFields.binding (w : WorkspaceFields) : Workspace :=
  { Name := TrimSpace w.name
    WorkspaceKind := TrimSpace w.first
    WorkspaceRef := TrimSpace w.second
    WorkspaceKindShortName := TrimSpace w.third }

/-- Neither the comma nor the equals sign occurs in the string. -/
def noCommaEq (s : Str) : Prop := ',' ∉ s ∧ '=' ∉ s

instance (s : Str) : Decidable (noCommaEq s) := by
  unfold noCommaEq; infer_instance

/-- The last entry of `pairs` whose trimmed key is `key`. -/
def lastWithKey {α : Type} (pairs : List (Str × α)) (key : Str) : Option (Str × α) :=
  (pairs.filter (fun kv => TrimSpace kv.1 = key)).getLast?

/-- The value of a list-params entry: the sub-values joined by `;`. -/
def listValue (vs : List Str) : Str := List.intercalate [';'] vs

/-- The sequence the source stores for a value of the list-params encoding:
the value is trimmed as a whole and then split on `;`. -/
def storedValues (vs : List Str) : List Str := Split (TrimSpace (listValue vs)) ';'

/-- The part of an entry after its first `=` (empty when there is none). -/
def afterEq (e : Str) : Str := (e.dropWhile (fun c => c != '=')).drop 1

/-- The number of `;`-separated sub-fields of a string. -/
def subFieldCount (s : Str) : Nat := s.count ';' + 1

/-- An invocation with a malformed entry: some entry of the scalar-params,
list-params or workspaces encoding contains no `=`, or some workspace entry
has fewer than 3 `;`-separated sub-fields after the `=`. -/
def Pipelinerun.malformed (p : Pipelinerun) : Prop :=
  (∃ e ∈ Split p.Params ',', '=' ∉ e) ∨
  (∃ e ∈ Split p.Listparams ',', '=' ∉ e) ∨
  (∃ e ∈ Split p.Workspaces ',', '=' ∉ e ∨ subFieldCount (afterEq e) < 3)

instance (p : Pipelinerun) : Decidable p.malformed := by
  unfold Pipelinerun.malformed; infer_instance

/-- A time of day used in the examples: day 4, minute 5, second 6. -/
def exampleTime : Time :=
  { Day := 4, Minute := 5, Second := 6,
    day_ok := by decide, minute_ok := by decide, second_ok := by decide }

/-- A request with the commit identifier `abcdef12` and the given invocations,
used in the examples. -/
def exampleRequest (runs : List Pipelinerun) : CreateRevisionRunRequest :=
  { Author := "alice".toList
    PushedAt := "2023-05-04".toList
    CommitId := "abcdef12".toList
    RepoUrl := "https://example.org/repo.git".toList
    RepoName := "repo".toList
    Pipelineruns := runs }

/-- An invocation with one entry in each of its three encodings. -/
def exampleRun (name : String) (stage : Int) : Pipelinerun :=
  { Name := name.toList
    Stage := stage
    Params := "a=1".toList
    Listparams := "l=1;2".toList
    Workspaces := "ws=pvc;short;ref".toList }

/-- An invocation whose three encodings are the empty string. -/
def emptyRun (name : String) (stage : Int) : Pipelinerun :=
  { Name := name.toList, Stage := stage, Params := [], Listparams := [], Workspaces := [] }

/-- A well-formed invocation: every entry of the scalar-params and of the
list-params encoding has exactly one `=`, and every entry of the workspaces
encoding has the form `n=a;b;c`, with exactly one `=`, no `;` before it and
exactly two `;` after it. -/
def Pipelinerun.wellFormed (p : Pipelinerun) : Prop :=
  (∀ e ∈ Split p.Params ',', e.count '=' = 1) ∧
  (∀ e ∈ Split p.Listparams ',', e.count '=' = 1) ∧
  (∀ e ∈ Split p.Workspaces ',',
    e.count '=' = 1 ∧ ';' ∉ e.takeWhile (fun c => c != '=') ∧ (afterEq e).count ';' = 2)

instance (p : Pipelinerun) : Decidable p.wellFormed := by
  unfold Pipelinerun.wellFormed; infer_instance

/-- A well-formed request: the commit identifier has at least 4 characters
and every invocation is well-formed. -/
def CreateRevisionRunRequest.wellFormed (r : CreateRevisionRunRequest) : Prop :=
  4 ≤ r.CommitId.length ∧ ∀ p ∈ r.Pipelineruns, p.wellFormed

instance (r : CreateRevisionRunRequest) : Decidable r.wellFormed := by
  unfold CreateRevisionRunRequest.wellFormed; infer_instance

/-- The manifest of an invocation, with the empty text when there is none. -/
def manifestOf (pipelineNamespace : Str) (dt : Time) (gRPCRequest : CreateRevisionRunRequest)
    (pipelinerun : Pipelinerun) : Str :=
  (renderManifest pipelineNamespace dt gRPCRequest pipelinerun).getD []

/-- The position of the first occurrence of `a` in a list of strings (the
length of the list when `a` does not occur). -/
def firstIndex (a : Str) : List Str → Nat
  | [] => 0
  | x :: xs => if x = a then 0 else firstIndex a xs + 1

/-- The stage labels of the invocations of a request, in request order. -/
def stageLabels (gRPCRequest : CreateRevisionRunRequest) : List Str :=
  gRPCRequest.Pipelineruns.map (fun p => Sprintf p.Stage)

/-- The number a string of decimal digits stands for. -/
def decimalValue (s : Str) : Nat := s.foldl (fun acc c => 10 * acc + (c.toNat - 48)) 0

/-- The name `st-<stage>-<name>-<suffix>` for a stage, an invocation name and
a suffix. -/
def stageName (stage : Int) (name suffix : Str) : Str :=
  "st-".toList ++ Sprintf stage ++ "-".toList ++ name ++ "-".toList ++ suffix

/-- The text at the place of the metadata name in a manifest: what stands
between the head of the template and the next double quote. -/
def nameInManifest (manifest : Str) : Str :=
  (manifest.drop templateHead.length).takeWhile (fun c => c != '\"')

/-- The metadata names of the manifests of a call, in request order. -/
def manifestNames (pipelineNamespace : Str) (dt : Time)
    (gRPCRequest : CreateRevisionRunRequest) : List Str :=
  gRPCRequest.Pipelineruns.filterMap
    (fun p => (buildPipelineRun pipelineNamespace dt gRPCRequest p).map metadataName)

/-- The request `r` with the invocation list replaced by `runs`. -/
def withRuns (r : CreateRevisionRunRequest) (runs : List Pipelinerun) :
    CreateRevisionRunRequest :=
  { r with Pipelineruns := runs }

/-- The block the template prints for a workspace entry `n=a;b;c`: the name,
the first sub-field as nested key, then the third sub-field as inner key with
the second sub-field as its value, all trimmed. -/
def workspaceBlock (w : WorkspaceFields) : Str :=
  "\n  - name: ".toList ++ TrimSpace w.name ++ "\n    ".toList ++ TrimSpace w.first ++
    ":\n      ".toList ++ TrimSpace w.third ++ ": ".toList ++ TrimSpace w.second

/-- The number of manifests held by a bucket map. -/
def manifestCount (m : GoMap Int (List Str)) : Nat := (m.map (fun e => e.2.length)).sum

/-! ## `RenderOutputData` -/

/-- The struct `VariableDelimiter` (`end` is a keyword, the field is `finish`). -/
structure VariableDelimiter where
  begin : Str
  finish : Str
  regexPattern : Str
  deriving DecidableEq, Repr

/-- The registry `Patterns`: the styles `curly` and `square`. -/
def Patterns : GoMap Str VariableDelimiter :=
  [("curly".toList,
      ⟨"\x7b\x7b".toList, "\x7d\x7d".toList, "\\\x7b\\\x7b(.*?)\\\x7d\\\x7d".toList⟩),
   ("square".toList, ⟨"[[".toList, "]]".toList, "\\[\\[(.*?)\\]\\]".toList⟩)]

/-- The index expression `Patterns[delimiter]`: a missing key reads as the
zero value of `VariableDelimiter`, with empty strings. -/
def patternOf (delimiter : Str) : VariableDelimiter :=
  (Patterns.read delimiter).getD ⟨[], [], []⟩

/-- The rest of `s` after the prefix `p`, when `s` starts with `p`. -/
def dropPrefix? : Str → Str → Option Str
  | [], s => some s
  | _ :: _, [] => none
  | a :: p, c :: s => if a = c then dropPrefix? p s else none

/-- The function `strings.Cut(s, sep)`: the text before and after the first
occurrence of `sep`, when there is one. -/
def Cut (s sep : Str) : Option (Str × Str) :=
  match s with
  | [] => (dropPrefix? sep []).map (fun r => ([], r))
  | c :: cs =>
    match dropPrefix? sep (c :: cs) with
    | some rest => some ([], rest)
    | none => (Cut cs sep).map (fun r => (c :: r.1, r.2))

/-- The scan of `strings.ReplaceAll(s, old, new)` for a non-empty `old`, with
the number of characters of a found occurrence still to skip. -/
def replaceSkip (old new : Str) : Nat → Str → Str
  | _, [] => []
  | skip + 1, _ :: cs => replaceSkip old new skip cs
  | 0, c :: cs =>
    match dropPrefix? old (c :: cs) with
    | some _ => new ++ replaceSkip old new (old.length - 1) cs
    | none => c :: replaceSkip old new 0 cs

/-- The function `strings.ReplaceAll(s, old, new)` for a non-empty `old`: the
occurrences of `old` are replaced from left to right, without overlap. -/
def ReplaceAll (s old new : Str) : Str := replaceSkip old new 0 s

/-- The encoded double quote `&#34;`. -/
def encodedQuote : Str := "&#34;".toList

/-- The escaping of a substituted value: a double quote becomes `&#34;`. -/
def escapeQuotes (v : Str) : Str :=
  (v.map (fun c => if c = '\"' then encodedQuote else [c])).flatten

/-- The substitution of the placeholders with the markers `left` and
`right`, by recursion on a fuel argument: the text up to the next `left` is
kept, the name up to the next `right` is looked up and its escaped value
written; a name that is not in the mapping gives the empty text; a `left`
without `right` is an error. -/
def substitute (left right : Str) (vars : GoMap Str Str) : Nat → Str → Option Str
  | 0, _ => none
  | fuel + 1, s =>
    match Cut s left with
    | none => some s
    | some (before, rest) =>
      match Cut rest right with
      | none => none
      | some (name, after) =>
        (substitute left right vars fuel after).map
          (fun r => before ++ escapeQuotes ((vars.read name).getD []) ++ r)

/-- Modelled from the spec: `sthingsBase.RenderTemplateInline` belongs to
another module.  The spec has it replace every occurrence of
open-marker, name, close-marker by the value of the name in the mapping,
render an unresolved name as empty and escape quote characters of the values
to `&#34;`.  The spec has an unknown delimiter style be an error and never a
fallback to some pair of markers; the source hands this function the empty
markers of the zero value for such a style, so an empty marker is an error
here. -/
def RenderTemplateInline (template renderOption delimLeft delimRight : Str)
    (templateVariables : GoMap Str Str) : Option Str :=
  let _ := renderOption
  if delimLeft = [] ∨ delimRight = [] then none
  else substitute delimLeft delimRight templateVariables (template.length + 1) template

/-- The function `RenderOutputData`; the result is the text it prints, and
`none` when it ends in `log.Fatal`. -/
def RenderOutputData (template delimiter : Str) (templateKeyValues : GoMap Str Str) :
    Option Str :=
  match RenderTemplateInline template "missingkey=zero".toList (patternOf delimiter).begin
      (patternOf delimiter).finish templateKeyValues with
  | none => none
  | some renderedTemplate => some (ReplaceAll renderedTemplate encodedQuote " ".toList)

/-- A template made of pieces: each piece is a text followed by a placeholder
with a name, and `last` is the text after the last placeholder. -/
def templateOf (left right : Str) (pieces : List (Str × Str)) (last : Str) : Str :=
  (pieces.map (fun pc => pc.1 ++ left ++ pc.2 ++ right)).flatten ++ last

/-- The text of the pieces with every placeholder replaced by the escaped
value of its name (empty for a name that is not in the mapping). -/
def substituted (vars : GoMap Str Str) (pieces : List (Str × Str)) (last : Str) : Str :=
  (pieces.map (fun pc => pc.1 ++ escapeQuotes ((vars.read pc.2).getD []))).flatten ++ last

/-- The string has none of the four bracket characters of the two styles. -/
def noBracket (s : Str) : Prop :=
  '\x7b' ∉ s ∧ '\x7d' ∉ s ∧ '[' ∉ s ∧ ']' ∉ s

instance (s : Str) : Decidable (noBracket s) := by
  unfold noBracket; infer_instance

/-- The entry the source stores for a pair of the scalar-params encoding. -/
def trimmedPair (kv : Str × Str) : Str × Str := (TrimSpace kv.1, TrimSpace kv.2)

/-- The invocation `p` with the scalar-params encoding of `pairs`. -/
def withParams (p : Pipelinerun) (pairs : List (Str × Str)) : Pipelinerun :=
  { p with Params := joinEntries (pairs.map paramEntry) }

/-- The fragment of the commit identifier in a manifest name: its first 4
bytes (empty when the slice panics). -/
def commitFragment (s : Str) : Str := (slice04 s).getD []

/-- Every character of the string is an ASCII character. -/
def isAscii (s : Str) : Prop := ∀ c ∈ s, c.toNat < 128

instance (s : Str) : Decidable (isAscii s) := by
  unfold isAscii; infer_instance

/-! ## Lemmas on `Split` -/

theorem splitAux_of_not_mem (sep : Char) (s : Str) (h : sep ∉ s) :
    splitAux sep s = (s, []) := by
  induction s with
  | nil => rfl
  | cons c cs ih =>
    have hc : c ≠ sep := fun e => h (e ▸ List.mem_cons_self _ _)
    have hcs : sep ∉ cs := fun e => h (List.mem_cons_of_mem _ e)
    simp [splitAux, ih hcs, hc]

theorem splitAux_append (sep : Char) (a r : Str) (h : sep ∉ a) :
    splitAux sep (a ++ sep :: r) = (a, (splitAux sep r).1 :: (splitAux sep r).2) := by
  induction a with
  | nil => simp [splitAux]
  | cons c cs ih =>
    have hc : c ≠ sep := fun e => h (e ▸ List.mem_cons_self _ _)
    have hcs : sep ∉ cs := fun e => h (List.mem_cons_of_mem _ e)
    simp [splitAux, ih hcs, hc]

theorem Split_of_not_mem (sep : Char) (s : Str) (h : sep ∉ s) : Split s sep = [s] := by
  simp [Split, splitAux_of_not_mem sep s h]

theorem Split_append (sep : Char) (a r : Str) (h : sep ∉ a) :
    Split (a ++ sep :: r) sep = a :: Split r sep := by
  simp [Split, splitAux_append sep a r h]

theorem Split_intercalate (sep : Char) (ls : List Str) (hne : ls ≠ [])
    (h : ∀ l ∈ ls, sep ∉ l) : Split (List.intercalate [sep] ls) sep = ls := by
  induction ls with
  | nil => exact absurd rfl hne
  | cons x rest ih =>
    cases rest with
    | nil =>
      simpa [List.intercalate] using Split_of_not_mem sep x (h x (List.mem_cons_self _ _))
    | cons y rest2 =>
      have hx : sep ∉ x := h x (List.mem_cons_self _ _)
      have hrest : ∀ l ∈ y :: rest2, sep ∉ l := fun l hl => h l (List.mem_cons_of_mem _ hl)
      have e : List.intercalate [sep] (x :: y :: rest2)
          = x ++ sep :: List.intercalate [sep] (y :: rest2) := by
        simp [List.intercalate, List.intersperse]
      rw [e, Split_append sep x _ hx, ih (List.cons_ne_nil _ _) hrest]

theorem Split_length (sep : Char) (s : Str) : (Split s sep).length = s.count sep + 1 := by
  induction s with
  | nil => rfl
  | cons c cs ih =>
    by_cases hc : c = sep
    · subst hc
      simp only [Split, List.length_cons] at ih ⊢
      simp [splitAux, ih]
    · have hc2 : (c == sep) = false := by simpa using hc
      simp only [Split, List.length_cons] at ih ⊢
      simp [splitAux, hc, List.count_cons, hc2, ih]

/-! ## The workspaces encoding -/

theorem Split_workspaceEntry (w : WorkspaceFields) (h : w.clean) :
    Split (workspaceEntry w) '=' = [w.name, w.first ++ ';' :: (w.second ++ ';' :: w.third)] ∧
    Split (w.first ++ ';' :: (w.second ++ ';' :: w.third)) ';' = [w.first, w.second, w.third] := by
  obtain ⟨hn, hf, hs, ht⟩ := h
  constructor
  · unfold workspaceEntry
    rw [Split_append _ _ _ hn.2.1, Split_of_not_mem]
    simp only [List.mem_append, List.mem_cons, not_or]
    exact ⟨hf.2.1, by decide, hs.2.1, by decide, ht.2.1⟩
  · rw [Split_append _ _ _ hf.2.2, Split_append _ _ _ hs.2.2, Split_of_not_mem _ _ ht.2.2]

theorem pipelineWorkspaces_entries (ws : List WorkspaceFields) (h : ∀ w ∈ ws, w.clean)
    (acc : List Workspace) :
    pipelineWorkspaces (ws.map workspaceEntry) acc
      = some (acc ++ ws.map WorkspaceFields.binding) := by
  induction ws generalizing acc with
  | nil => simp [pipelineWorkspaces]
  | cons w rest ih =>
    have hw := Split_workspaceEntry w (h w (List.mem_cons_self _ _))
    have hrest : ∀ w ∈ rest, w.clean := fun x hx => h x (List.mem_cons_of_mem _ hx)
    simp only [List.map_cons, pipelineWorkspaces, hw.1, hw.2]
    rw [ih hrest]
    simp [WorkspaceFields.binding]

theorem Split_joinEntries (entries : List Str) (hne : entries ≠ [])
    (h : ∀ e ∈ entries, ',' ∉ e) : Split (joinEntries entries) ',' = entries :=
  Split_intercalate ',' entries hne h

theorem workspaceEntry_no_comma (w : WorkspaceFields) (h : w.clean) :
    ',' ∉ workspaceEntry w := by
  obtain ⟨hn, hf, hs, ht⟩ := h
  unfold workspaceEntry
  simp only [List.mem_append, List.mem_cons, not_or]
  exact ⟨hn.1, by decide, hf.1, by decide, hs.1, by decide, ht.1⟩

/-- C1, as the specification states it, fails: the entry `ws=pvc;short;ref`
yields the binding whose reference is `short` and whose short-name is `ref`,
not the binding with short-name `short` and reference `ref`. -/
theorem C1_shortName_reference_counterexample :
    pipelineWorkspaces (Split "ws=pvc;short;ref".toList ',') []
      = some [{ Name := "ws".toList, WorkspaceKind := "pvc".toList,
                WorkspaceRef := "short".toList, WorkspaceKindShortName := "ref".toList }] ∧
    pipelineWorkspaces (Split "ws=pvc;short;ref".toList ',') []
      ≠ some [{ Name := "ws".toList, WorkspaceKind := "pvc".toList,
                WorkspaceKindShortName := "short".toList, WorkspaceRef := "ref".toList }] := by
  decide

/-- C1, amended: for a workspaces encoding whose comma-separated entries each
have the form `n=a;b;c` with no separator inside `n`, `a`, `b`, `c`, the
workspace parsing of `RenderPipelineRuns` yields exactly one binding per
entry, in encoding order, with name `trim n`, kind `trim a`, reference
`trim b` and short-name `trim c`. -/
theorem C1_workspaces_parsed (ws : List WorkspaceFields) (hne : ws ≠ [])
    (h : ∀ w ∈ ws, w.clean) :
    pipelineWorkspaces (Split (joinEntries (ws.map workspaceEntry)) ',') []
      = some (ws.map WorkspaceFields.binding) ∧
    (ws.map WorkspaceFields.binding).length = ws.length ∧
    ∀ (i : Nat) (hi : i < ws.length), ∀ b ∈ (ws.map WorkspaceFields.binding)[i]?,
      b.Name = TrimSpace (ws.get ⟨i, hi⟩).name ∧
      b.WorkspaceKind = TrimSpace (ws.get ⟨i, hi⟩).first ∧
      b.WorkspaceRef = TrimSpace (ws.get ⟨i, hi⟩).second ∧
      b.WorkspaceKindShortName = TrimSpace (ws.get ⟨i, hi⟩).third := by
  refine ⟨?_, by simp, ?_⟩
  · rw [Split_joinEntries]
    · simpa using pipelineWorkspaces_entries ws h []
    · simpa using hne
    · intro e he
      obtain ⟨w, hw, rfl⟩ := List.mem_map.1 he
      exact workspaceEntry_no_comma w (h w hw)
  · intro i hi b hb
    have hb2 : WorkspaceFields.binding (ws.get ⟨i, hi⟩) = b := by
      simpa [List.getElem?_map, List.getElem?_eq_getElem hi] using hb
    subst hb2
    simp [WorkspaceFields.binding]

/-- The amended C1 at the encoding `ws=pvc;short;ref`. -/
theorem C1_workspaces_parsed_witness :
    ([⟨"ws".toList, "pvc".toList, "short".toList, "ref".toList⟩] : List WorkspaceFields) ≠ [] ∧
    (∀ w ∈ ([⟨"ws".toList, "pvc".toList, "short".toList, "ref".toList⟩] : List WorkspaceFields),
      w.clean) ∧
    pipelineWorkspaces (Split (joinEntries
        ([⟨"ws".toList, "pvc".toList, "short".toList, "ref".toList⟩].map workspaceEntry)) ',') []
      = some ([⟨"ws".toList, "pvc".toList, "short".toList, "ref".toList⟩].map
          WorkspaceFields.binding) :=
  ⟨by decide, by decide,
    (C1_workspaces_parsed [⟨"ws".toList, "pvc".toList, "short".toList, "ref".toList⟩]
      (by decide) (by decide)).1⟩

/-! ## Go maps -/

theorem GoMap.read_store {κ α : Type} [DecidableEq κ] (m : GoMap κ α) (k : κ) (v : α) (k2 : κ) :
    (m.store k v).read k2 = if k = k2 then some v else m.read k2 := by
  induction m with
  | nil => simp [GoMap.store, GoMap.read]
  | cons e rest ih =>
    obtain ⟨k1, v1⟩ := e
    by_cases h1 : k1 = k
    · subst h1
      by_cases h3 : k1 = k2 <;> simp [GoMap.store, GoMap.read, h3]
    · by_cases h2 : k1 = k2
      · subst h2
        have : ¬ k = k1 := fun e => h1 e.symm
        simp [GoMap.store, GoMap.read, h1, this]
      · simp [GoMap.store, GoMap.read, h1, h2, ih]

theorem GoMap.mem_domain_iff {κ α : Type} [DecidableEq κ] (m : GoMap κ α) (k : κ) :
    k ∈ m.domain ↔ (m.read k).isSome = true := by
  induction m with
  | nil => simp [GoMap.domain, GoMap.read]
  | cons e rest ih =>
    obtain ⟨k1, v1⟩ := e
    by_cases h : k1 = k
    · simp [GoMap.domain, GoMap.read, h]
    · have h2 : ¬ k = k1 := fun e => h e.symm
      have ih2 : k ∈ List.map Prod.fst rest ↔ (GoMap.read rest k).isSome = true := ih
      simp only [GoMap.domain, List.map_cons, List.mem_cons, h2, false_or, GoMap.read, h,
        if_false]
      exact ih2

theorem lastWithKey_isSome {α : Type} (pairs : List (Str × α)) (key : Str) :
    (lastWithKey pairs key).isSome = true ↔ ∃ kv ∈ pairs, TrimSpace kv.1 = key := by
  unfold lastWithKey
  constructor
  · intro hs
    cases hl : (pairs.filter (fun kv => TrimSpace kv.1 = key)).getLast? with
    | none => simp [hl] at hs
    | some kv =>
      have hmem := List.mem_of_getLast?_eq_some hl
      rw [List.mem_filter] at hmem
      exact ⟨kv, hmem.1, by simpa using hmem.2⟩
  · rintro ⟨kv, hkv, hk⟩
    have hmem : kv ∈ pairs.filter (fun kv => TrimSpace kv.1 = key) := by
      rw [List.mem_filter]; exact ⟨hkv, by simpa using hk⟩
    cases hl : (pairs.filter (fun kv => TrimSpace kv.1 = key)).getLast? with
    | none =>
      rw [List.getLast?_eq_none_iff] at hl
      rw [hl] at hmem
      exact absurd hmem (List.not_mem_nil _)
    | some kv2 => simp

/-! ## The scalar-params encoding -/

theorem Split_paramEntry (kv : Str × Str) (hk : '=' ∉ kv.1) (hv : '=' ∉ kv.2) :
    Split (paramEntry kv) '=' = [kv.1, kv.2] := by
  unfold paramEntry
  rw [Split_append _ _ _ hk, Split_of_not_mem _ _ hv]

theorem pipelineParams_entries (pairs : List (Str × Str))
    (h : ∀ kv ∈ pairs, '=' ∉ kv.1 ∧ '=' ∉ kv.2) (m : GoMap Str Str) :
    pipelineParams (pairs.map paramEntry) m
      = some (pairs.foldl (fun acc kv => GoMap.store acc (TrimSpace kv.1) (TrimSpace kv.2)) m) := by
  induction pairs generalizing m with
  | nil => simp [pipelineParams]
  | cons kv rest ih =>
    have hkv := h kv (List.mem_cons_self _ _)
    have hrest : ∀ kv ∈ rest, '=' ∉ kv.1 ∧ '=' ∉ kv.2 :=
      fun x hx => h x (List.mem_cons_of_mem _ hx)
    simp only [List.map_cons, pipelineParams, Split_paramEntry kv hkv.1 hkv.2, List.foldl_cons]
    exact ih hrest _

theorem read_foldl_store {α β : Type} (f : β → α) (pairs : List (Str × β)) (m : GoMap Str α)
    (key : Str) :
    GoMap.read (pairs.foldl (fun acc kv => GoMap.store acc (TrimSpace kv.1) (f kv.2)) m) key
      = match lastWithKey pairs key with
        | some kv => some (f kv.2)
        | none => m.read key := by
  induction pairs using List.reverseRecOn with
  | nil => simp [lastWithKey]
  | append_singleton l x ih =>
    simp only [List.foldl_append, List.foldl_cons, List.foldl_nil, GoMap.read_store, ih]
    by_cases hx : TrimSpace x.1 = key
    · simp [lastWithKey, List.filter_append, hx]
    · simp [lastWithKey, List.filter_append, hx]

theorem paramEntry_no_comma (kv : Str × Str) (hk : ',' ∉ kv.1) (hv : ',' ∉ kv.2) :
    ',' ∉ paramEntry kv := by
  unfold paramEntry
  simp only [List.mem_append, List.mem_cons, not_or]
  exact ⟨hk, by decide, hv⟩

/-- C2: for a scalar-params encoding whose comma-separated entries each have
the form `k=v` with neither `,` nor `=` inside `k` and `v`, the parameter map
built by `RenderPipelineRuns` has as keys exactly the trimmed `k`, and maps
each key to the trimmed `v` of the last entry carrying that key. -/
theorem C2_scalar_params_parsed (pairs : List (Str × Str)) (hne : pairs ≠ [])
    (h : ∀ kv ∈ pairs, noCommaEq kv.1 ∧ noCommaEq kv.2) :
    ∃ m, pipelineParams (Split (joinEntries (pairs.map paramEntry)) ',') [] = some m ∧
      (∀ key, key ∈ m.domain ↔ ∃ kv ∈ pairs, TrimSpace kv.1 = key) ∧
      (∀ key, m.read key = (lastWithKey pairs key).map (fun kv => TrimSpace kv.2)) := by
  have hsplit : Split (joinEntries (pairs.map paramEntry)) ',' = pairs.map paramEntry := by
    apply Split_joinEntries
    · simpa using hne
    · intro e he
      obtain ⟨kv, hkv, rfl⟩ := List.mem_map.1 he
      exact paramEntry_no_comma kv (h kv hkv).1.1 (h kv hkv).2.1
  have hget : ∀ key,
      GoMap.read (pairs.foldl (fun acc kv => GoMap.store acc (TrimSpace kv.1) (TrimSpace kv.2))
        ([] : GoMap Str Str)) key
        = (lastWithKey pairs key).map (fun kv => TrimSpace kv.2) := by
    intro key
    rw [read_foldl_store TrimSpace pairs [] key]
    cases lastWithKey pairs key <;> simp [GoMap.read]
  refine ⟨_, ?_, ?_, hget⟩
  · rw [hsplit]
    exact pipelineParams_entries pairs (fun kv hkv => ⟨(h kv hkv).1.2, (h kv hkv).2.2⟩) []
  · intro key
    rw [GoMap.mem_domain_iff, hget key, ← lastWithKey_isSome]
    cases lastWithKey _ key <;> simp

/-- C2 at the encoding `a=1,b=2`: the map has the keys `a` and `b`, with the
values `1` and `2`. -/
theorem C2_scalar_params_parsed_witness :
    ([("a".toList, "1".toList), ("b".toList, "2".toList)] : List (Str × Str)) ≠ [] ∧
    pipelineParams (Split "a=1,b=2".toList ',') []
      = some [("a".toList, "1".toList), ("b".toList, "2".toList)] ∧
    ∃ m, pipelineParams (Split (joinEntries
        ([("a".toList, "1".toList), ("b".toList, "2".toList)].map paramEntry)) ',') [] = some m ∧
      (∀ key, key ∈ m.domain ↔
        ∃ kv ∈ [("a".toList, "1".toList), ("b".toList, "2".toList)], TrimSpace kv.1 = key) ∧
      (∀ key, m.read key = (lastWithKey [("a".toList, "1".toList), ("b".toList, "2".toList)]
        key).map (fun kv => TrimSpace kv.2)) :=
  ⟨by decide, by decide,
    C2_scalar_params_parsed [("a".toList, "1".toList), ("b".toList, "2".toList)]
      (by decide) (by decide)⟩

/-! ## The list-params encoding -/

theorem mem_intercalate (sep c : Char) (ls : List Str) (h : c ∈ List.intercalate [sep] ls) :
    c = sep ∨ ∃ l ∈ ls, c ∈ l := by
  induction ls with
  | nil => simp [List.intercalate] at h
  | cons x rest ih =>
    cases rest with
    | nil =>
      right
      exact ⟨x, List.mem_cons_self _ _, by simpa [List.intercalate] using h⟩
    | cons y rest2 =>
      have e : List.intercalate [sep] (x :: y :: rest2)
          = x ++ sep :: List.intercalate [sep] (y :: rest2) := by
        simp [List.intercalate, List.intersperse]
      rw [e, List.mem_append, List.mem_cons] at h
      rcases h with h | h | h
      · exact Or.inr ⟨x, List.mem_cons_self _ _, h⟩
      · exact Or.inl h
      · rcases ih h with h2 | ⟨l, hl, hc⟩
        · exact Or.inl h2
        · exact Or.inr ⟨l, List.mem_cons_of_mem _ hl, hc⟩

theorem listValue_no (c : Char) (hc : c ≠ ';') (vs : List Str) (h : ∀ v ∈ vs, c ∉ v) :
    c ∉ List.intercalate [';'] vs := by
  intro hmem
  rcases mem_intercalate ';' c vs hmem with h1 | ⟨l, hl, hcl⟩
  · exact hc h1
  · exact h l hl hcl

theorem Split_listParamEntry (e : Str × List Str) (hk : '=' ∉ e.1) (hv : ∀ v ∈ e.2, '=' ∉ v) :
    Split (listParamEntry e) '=' = [e.1, listValue e.2] := by
  unfold listParamEntry listValue
  rw [Split_append _ _ _ hk, Split_of_not_mem _ _ (listValue_no '=' (by decide) e.2 hv)]

theorem listPipelineParams_entries (entries : List (Str × List Str))
    (h : ∀ e ∈ entries, '=' ∉ e.1 ∧ ∀ v ∈ e.2, '=' ∉ v) (m : GoMap Str (List Str)) :
    listPipelineParams (entries.map listParamEntry) m
      = some (entries.foldl (fun acc e => GoMap.store acc (TrimSpace e.1) (storedValues e.2)) m) := by
  induction entries generalizing m with
  | nil => simp [listPipelineParams]
  | cons e rest ih =>
    have he := h e (List.mem_cons_self _ _)
    have hrest : ∀ e ∈ rest, '=' ∉ e.1 ∧ ∀ v ∈ e.2, '=' ∉ v :=
      fun x hx => h x (List.mem_cons_of_mem _ hx)
    simp only [List.map_cons, listPipelineParams, Split_listParamEntry e he.1 he.2,
      List.foldl_cons]
    exact ih hrest _

/-- C3, as the specification states it, fails: in the entry `a= 1;2` the
sub-values are ` 1` and `2`, and the map holds `1` and `2`. -/
theorem C3_sub_values_counterexample :
    listPipelineParams (Split "a= 1;2".toList ',') []
      = some [("a".toList, ["1".toList, "2".toList])] ∧
    listPipelineParams (Split "a= 1;2".toList ',') []
      ≠ some [("a".toList, [" 1".toList, "2".toList])] := by
  decide

/-- C3, amended: for a list-params encoding whose comma-separated entries
each have the form `k=v1;...;vn` with `n ≥ 1` and no separator inside `k` and
the `v`, the list-parameter map built by `RenderPipelineRuns` has as keys the
trimmed `k`, and maps each key to the pieces of the trimmed value
`trim(v1;...;vn)` of the last entry carrying that key.  That sequence is
never empty, and it is `v1, ..., vn` in encoding order when the value has no
white space at its two ends. -/
theorem C3_list_params_parsed (entries : List (Str × List Str)) (hne : entries ≠ [])
    (h : ∀ e ∈ entries, noCommaEq e.1 ∧ e.2 ≠ [] ∧ ∀ v ∈ e.2, noSeparator v) :
    ∃ m, listPipelineParams (Split (joinEntries (entries.map listParamEntry)) ',') [] = some m ∧
      (∀ key, key ∈ m.domain ↔ ∃ e ∈ entries, TrimSpace e.1 = key) ∧
      (∀ key, m.read key = (lastWithKey entries key).map (fun e => storedValues e.2)) ∧
      (∀ e ∈ entries, storedValues e.2 ≠ [] ∧
        (TrimSpace (listValue e.2) = listValue e.2 → storedValues e.2 = e.2)) := by
  have hsplit : Split (joinEntries (entries.map listParamEntry)) ','
      = entries.map listParamEntry := by
    apply Split_joinEntries
    · simpa using hne
    · intro x hx
      obtain ⟨e, he, rfl⟩ := List.mem_map.1 hx
      unfold listParamEntry
      simp only [List.mem_append, List.mem_cons, not_or]
      exact ⟨(h e he).1.1, by decide,
        listValue_no ',' (by decide) e.2 (fun v hv => ((h e he).2.2 v hv).1)⟩
  have hget : ∀ key,
      GoMap.read (entries.foldl
        (fun acc e => GoMap.store acc (TrimSpace e.1) (storedValues e.2))
        ([] : GoMap Str (List Str))) key
        = (lastWithKey entries key).map (fun e => storedValues e.2) := by
    intro key
    rw [read_foldl_store storedValues entries [] key]
    cases lastWithKey entries key <;> simp [GoMap.read]
  refine ⟨_, ?_, ?_, hget, ?_⟩
  · rw [hsplit]
    exact listPipelineParams_entries entries
      (fun e he => ⟨(h e he).1.2, fun v hv => ((h e he).2.2 v hv).2.1⟩) []
  · intro key
    rw [GoMap.mem_domain_iff, hget key, ← lastWithKey_isSome]
    cases lastWithKey _ key <;> simp
  · intro e he
    refine ⟨by simp [storedValues, Split], ?_⟩
    intro htrim
    unfold storedValues
    rw [htrim]
    exact Split_intercalate ';' e.2 (h e he).2.1 (fun v hv => ((h e he).2.2 v hv).2.2)

/-- The amended C3 at the encoding `a=1;2;3,b=1`: `a` is mapped to the three
values and `b` to the one-element sequence. -/
theorem C3_list_params_parsed_witness :
    listPipelineParams (Split "a=1;2;3,b=1".toList ',') []
      = some [("a".toList, ["1".toList, "2".toList, "3".toList]), ("b".toList, ["1".toList])] ∧
    ∃ m, listPipelineParams (Split (joinEntries
        ([("a".toList, ["1".toList, "2".toList, "3".toList]),
          ("b".toList, ["1".toList])].map listParamEntry)) ',') [] = some m ∧
      (∀ key, key ∈ m.domain ↔
        ∃ e ∈ [("a".toList, ["1".toList, "2".toList, "3".toList]), ("b".toList, ["1".toList])],
          TrimSpace e.1 = key) ∧
      (∀ key, m.read key = (lastWithKey
        [("a".toList, ["1".toList, "2".toList, "3".toList]), ("b".toList, ["1".toList])]
          key).map (fun e => storedValues e.2)) ∧
      (∀ e ∈ [("a".toList, ["1".toList, "2".toList, "3".toList]), ("b".toList, ["1".toList])],
        storedValues e.2 ≠ [] ∧
        (TrimSpace (listValue e.2) = listValue e.2 → storedValues e.2 = e.2)) :=
  ⟨by decide,
    C3_list_params_parsed
      [("a".toList, ["1".toList, "2".toList, "3".toList]), ("b".toList, ["1".toList])]
      (by decide) (by decide)⟩

/-! ## Malformed entries -/

theorem splitAux_fst (sep : Char) (s : Str) :
    (splitAux sep s).1 = s.takeWhile (fun c => c != sep) := by
  induction s with
  | nil => rfl
  | cons c cs ih =>
    by_cases hc : c = sep
    · simp [splitAux, hc]
    · simp [splitAux, hc, ih]

theorem splitAux_snd_of_mem (sep : Char) (s : Str) (h : sep ∈ s) :
    (splitAux sep s).2 = Split ((s.dropWhile (fun c => c != sep)).drop 1) sep := by
  induction s with
  | nil => simp at h
  | cons c cs ih =>
    by_cases hc : c = sep
    · simp [splitAux, hc, Split]
    · have hcs : sep ∈ cs := by
        rcases List.mem_cons.1 h with h1 | h1
        · exact absurd h1.symm hc
        · exact h1
      simp [splitAux, hc, ih hcs]

theorem Split_of_mem (sep : Char) (s : Str) (h : sep ∈ s) :
    Split s sep = s.takeWhile (fun c => c != sep) ::
      Split ((s.dropWhile (fun c => c != sep)).drop 1) sep := by
  unfold Split
  rw [splitAux_fst, splitAux_snd_of_mem sep s h]
  rfl

theorem Split_head (sep : Char) (s : Str) :
    ∃ t, Split s sep = s.takeWhile (fun c => c != sep) :: t :=
  ⟨(splitAux sep s).2, by unfold Split; rw [splitAux_fst]⟩

theorem pipelineParams_none (es : List Str) (h : ∃ e ∈ es, '=' ∉ e) (m : GoMap Str Str) :
    pipelineParams es m = none := by
  induction es generalizing m with
  | nil => simp at h
  | cons v rest ih =>
    by_cases hv : '=' ∈ v
    · have hrest : ∃ e ∈ rest, '=' ∉ e := by
        obtain ⟨e, he, hne⟩ := h
        rcases List.mem_cons.1 he with h1 | h1
        · subst h1; exact absurd hv hne
        · exact ⟨e, h1, hne⟩
      unfold pipelineParams
      split
      · exact ih hrest _
      · rfl
    · simp [pipelineParams, Split_of_not_mem _ _ hv]

theorem listPipelineParams_none (es : List Str) (h : ∃ e ∈ es, '=' ∉ e)
    (m : GoMap Str (List Str)) : listPipelineParams es m = none := by
  induction es generalizing m with
  | nil => simp at h
  | cons v rest ih =>
    by_cases hv : '=' ∈ v
    · have hrest : ∃ e ∈ rest, '=' ∉ e := by
        obtain ⟨e, he, hne⟩ := h
        rcases List.mem_cons.1 he with h1 | h1
        · subst h1; exact absurd hv hne
        · exact ⟨e, h1, hne⟩
      unfold listPipelineParams
      split
      · exact ih hrest _
      · rfl
    · simp [listPipelineParams, Split_of_not_mem _ _ hv]

theorem workspace_step_none (v : Str) (h : '=' ∉ v ∨ subFieldCount (afterEq v) < 3)
    (rest : List Str) (acc : List Workspace) : pipelineWorkspaces (v :: rest) acc = none := by
  by_cases hv : '=' ∈ v
  · have hcount : subFieldCount (afterEq v) < 3 := by
      rcases h with h | h
      · exact absurd hv h
      · exact h
    obtain ⟨t, ht⟩ := Split_head '=' (afterEq v)
    have hsplit : Split v '=' = v.takeWhile (fun c => c != '=') ::
        (afterEq v).takeWhile (fun c => c != '=') :: t := by
      rw [Split_of_mem '=' v hv]
      exact congrArg _ ht
    have hlen : (Split ((afterEq v).takeWhile (fun c => c != '=')) ';').length < 3 := by
      rw [Split_length]
      have hle : ((afterEq v).takeWhile (fun c => c != '=')).count ';'
          ≤ (afterEq v).count ';' :=
        (List.takeWhile_sublist _).count_le _
      unfold subFieldCount at hcount
      omega
    simp only [pipelineWorkspaces, hsplit]
    split
    · rename_i w0 w1 w2 tl heq
      rw [heq] at hlen
      simp only [List.length_cons] at hlen
      omega
    · rfl
  · simp [pipelineWorkspaces, Split_of_not_mem _ _ hv]

theorem pipelineWorkspaces_none (es : List Str)
    (h : ∃ e ∈ es, '=' ∉ e ∨ subFieldCount (afterEq e) < 3) (acc : List Workspace) :
    pipelineWorkspaces es acc = none := by
  induction es generalizing acc with
  | nil => simp at h
  | cons v rest ih =>
    by_cases hv : '=' ∉ v ∨ subFieldCount (afterEq v) < 3
    · exact workspace_step_none v hv rest acc
    · have hrest : ∃ e ∈ rest, '=' ∉ e ∨ subFieldCount (afterEq e) < 3 := by
        obtain ⟨e, he, hne⟩ := h
        rcases List.mem_cons.1 he with h1 | h1
        · subst h1; exact absurd hne hv
        · exact ⟨e, h1, hne⟩
      unfold pipelineWorkspaces
      split
      · split
        · exact ih hrest _
        · rfl
      · rfl

theorem buildPipelineRun_none_of_malformed (ns : Str) (dt : Time)
    (req : CreateRevisionRunRequest) (p : Pipelinerun) (h : p.malformed) :
    buildPipelineRun ns dt req p = none := by
  unfold buildPipelineRun
  rcases h with h | h | h
  · rw [pipelineParams_none _ h]
  · rw [listPipelineParams_none _ h]
    split <;> rfl
  · rw [pipelineWorkspaces_none _ h]
    split
    · rfl
    · split <;> rfl

theorem renderLoop_none (ns : Str) (dt : Time) (req : CreateRevisionRunRequest)
    (runs : List Pipelinerun) (h : ∃ p ∈ runs, renderManifest ns dt req p = none)
    (state : GoMap Int (List Str) × List Str) : renderLoop ns dt req runs state = none := by
  induction runs generalizing state with
  | nil => simp at h
  | cons p rest ih =>
    obtain ⟨m, stages⟩ := state
    unfold renderLoop
    cases hp : renderManifest ns dt req p with
    | none => rfl
    | some manifest =>
      have hrest : ∃ q ∈ rest, renderManifest ns dt req q = none := by
        obtain ⟨q, hq, hnone⟩ := h
        rcases List.mem_cons.1 hq with h1 | h1
        · subst h1; rw [hp] at hnone; exact absurd hnone (by simp)
        · exact ⟨q, h1, hnone⟩
      exact ih hrest _

theorem RenderPipelineRuns_none (ns : Str) (dt : Time) (req : CreateRevisionRunRequest)
    (h : ∃ p ∈ req.Pipelineruns, renderManifest ns dt req p = none) :
    RenderPipelineRuns ns dt req = none := by
  unfold RenderPipelineRuns
  rw [renderLoop_none ns dt req _ h]

/-- C4: when some invocation of the request has an entry of the scalar-params,
list-params or workspaces encoding without `=`, or a workspace entry with
fewer than 3 `;`-separated sub-fields after the `=`, `RenderPipelineRuns`
fails and returns no result. -/
theorem C4_malformed_entry_fails (pipelineNamespace : Str) (dt : Time)
    (gRPCRequest : CreateRevisionRunRequest)
    (h : ∃ p ∈ gRPCRequest.Pipelineruns, p.malformed) :
    RenderPipelineRuns pipelineNamespace dt gRPCRequest = none := by
  obtain ⟨p, hp, hmal⟩ := h
  apply RenderPipelineRuns_none
  refine ⟨p, hp, ?_⟩
  unfold renderManifest
  rw [buildPipelineRun_none_of_malformed _ _ _ p hmal]
  rfl

/-- C4 at two requests: one whose second invocation has the scalar-params
entry `a`, and one whose invocation has a workspace entry with two sub-fields. -/
theorem C4_malformed_entry_fails_witness :
    (∃ p ∈ (exampleRequest [exampleRun "build" 1,
        { exampleRun "test" 2 with Params := "a".toList }]).Pipelineruns, p.malformed) ∧
    RenderPipelineRuns "ns".toList exampleTime
      (exampleRequest [exampleRun "build" 1,
        { exampleRun "test" 2 with Params := "a".toList }]) = none ∧
    (∃ p ∈ (exampleRequest
        [{ exampleRun "build" 1 with Workspaces := "ws=pvc;short".toList }]).Pipelineruns,
      p.malformed) ∧
    RenderPipelineRuns "ns".toList exampleTime
      (exampleRequest [{ exampleRun "build" 1 with Workspaces := "ws=pvc;short".toList }])
      = none :=
  ⟨by decide, C4_malformed_entry_fails _ _ _ (by decide), by decide,
    C4_malformed_entry_fails _ _ _ (by decide)⟩

/-! ## Empty encodings -/

theorem malformed_of_empty_params (p : Pipelinerun) (h : p.Params = []) : p.malformed := by
  left
  refine ⟨[], ?_, by simp⟩
  rw [h]
  simp [Split, splitAux]

/-- C5 fails on the code: a request with an invocation whose scalar-params
encoding is the empty string (in particular one whose three encodings are all
empty) has no result, whatever its commit identifier, because the single
entry `""` of the split has no `values[1]`. -/
theorem C5_empty_encodings_panic (pipelineNamespace : Str) (dt : Time)
    (gRPCRequest : CreateRevisionRunRequest)
    (h : ∃ p ∈ gRPCRequest.Pipelineruns, p.Params = []) :
    RenderPipelineRuns pipelineNamespace dt gRPCRequest = none := by
  obtain ⟨p, hp, hempty⟩ := h
  apply RenderPipelineRuns_none
  refine ⟨p, hp, ?_⟩
  unfold renderManifest
  rw [buildPipelineRun_none_of_malformed _ _ _ p (malformed_of_empty_params p hempty)]
  rfl

/-- The failing input of C5: commit identifier `abcdef12`, one invocation
`build` of stage 1 with three empty encodings. -/
theorem C5_empty_encodings_panic_witness :
    4 ≤ (exampleRequest [emptyRun "build" 1]).CommitId.length ∧
    (∃ p ∈ (exampleRequest [emptyRun "build" 1]).Pipelineruns, p.Params = []) ∧
    RenderPipelineRuns "ns".toList exampleTime (exampleRequest [emptyRun "build" 1]) = none :=
  ⟨by decide, by decide, C5_empty_encodings_panic _ _ _ (by decide)⟩

/-! ## The slice of the commit identifier -/

theorem utf8Len_pos (c : Char) : 1 ≤ utf8Len c := by
  unfold utf8Len
  split
  · exact le_refl 1
  · split
    · omega
    · split <;> omega

theorem length_le_byteLength (s : Str) : s.length ≤ byteLength s := by
  induction s with
  | nil => simp [byteLength]
  | cons c cs ih =>
    have := utf8Len_pos c
    unfold byteLength at ih ⊢
    simp only [List.map_cons, List.sum_cons, List.length_cons]
    omega

theorem byteLength_of_isAscii (s : Str) (h : isAscii s) : byteLength s = s.length := by
  induction s with
  | nil => simp [byteLength]
  | cons c cs ih =>
    have hc : c.toNat < 128 := h c (List.mem_cons_self _ _)
    have hcs : isAscii cs := fun x hx => h x (List.mem_cons_of_mem _ hx)
    have ih2 := ih hcs
    unfold byteLength at ih2 ⊢
    simp only [List.map_cons, List.sum_cons, List.length_cons, ih2, utf8Len, hc, if_true]
    omega

theorem takeBytes_none_iff (s : Str) (n : Nat) : takeBytes s n = none ↔ byteLength s < n := by
  induction s generalizing n with
  | nil =>
    cases n with
    | zero => simp [takeBytes, byteLength]
    | succ n => simp [takeBytes, byteLength]
  | cons c cs ih =>
    cases n with
    | zero => simp [takeBytes]
    | succ n =>
      have hb : byteLength (c :: cs) = utf8Len c + byteLength cs := by
        simp [byteLength]
      by_cases hle : utf8Len c ≤ n + 1
      · simp only [takeBytes, hle, if_true, Option.map_eq_none', ih, hb]
        omega
      · simp only [takeBytes, hle, if_false, hb]
        constructor
        · intro h; exact absurd h (by simp)
        · intro h; omega

theorem slice04_some (s : Str) (h : 4 ≤ byteLength s) :
    slice04 s = some (commitFragment s) := by
  unfold commitFragment
  cases hs : slice04 s with
  | none =>
    have := (takeBytes_none_iff s 4).1 hs
    omega
  | some t => rfl

theorem slice04_none (s : Str) (h : byteLength s < 4) : slice04 s = none :=
  (takeBytes_none_iff s 4).2 h

theorem takeBytes_of_isAscii (s : Str) (n : Nat) (hn : n ≤ s.length)
    (h : isAscii (s.take n)) : takeBytes s n = some (s.take n) := by
  induction s generalizing n with
  | nil =>
    have : n = 0 := by simpa using hn
    subst this
    rfl
  | cons c cs ih =>
    cases n with
    | zero => rfl
    | succ n =>
      have hc : c.toNat < 128 := h c (by simp)
      have hcs : isAscii (cs.take n) := fun x hx => h x (by
        simp only [List.take_succ_cons, List.mem_cons]
        exact Or.inr hx)
      have hlen : utf8Len c = 1 := by simp [utf8Len, hc]
      have hn2 : n ≤ cs.length := by simpa using hn
      simp only [takeBytes, hlen, List.take_succ_cons]
      rw [if_pos (by omega)]
      have : n + 1 - 1 = n := by omega
      rw [this, ih n hn2 hcs]
      rfl

theorem commitFragment_of_isAscii (s : Str) (hn : 4 ≤ s.length) (h : isAscii (s.take 4)) :
    slice04 s = some (s.take 4) ∧ commitFragment s = s.take 4 := by
  have h1 : slice04 s = some (s.take 4) := takeBytes_of_isAscii s 4 hn h
  exact ⟨h1, by simp [commitFragment, h1]⟩

/-! ## Well-formed requests are rendered -/

theorem Split_of_count_one (sep : Char) (e : Str) (h : e.count sep = 1) :
    Split e sep = [e.takeWhile (fun c => c != sep),
      (e.dropWhile (fun c => c != sep)).drop 1] := by
  have hmem : sep ∈ e := List.count_pos_iff.1 (by omega)
  have hlen := Split_length sep e
  rw [Split_of_mem sep e hmem, List.length_cons, Split_length, h] at hlen
  have hnot : sep ∉ (e.dropWhile (fun c => c != sep)).drop 1 :=
    fun hm => by
      have := List.count_pos_iff.2 hm
      omega
  rw [Split_of_mem sep e hmem, Split_of_not_mem sep _ hnot]

theorem pipelineParams_some (es : List Str) (h : ∀ e ∈ es, e.count '=' = 1)
    (m : GoMap Str Str) : ∃ r, pipelineParams es m = some r := by
  induction es generalizing m with
  | nil => exact ⟨m, rfl⟩
  | cons v rest ih =>
    have hrest : ∀ e ∈ rest, e.count '=' = 1 := fun e he => h e (List.mem_cons_of_mem _ he)
    simp only [pipelineParams, Split_of_count_one '=' v (h v (List.mem_cons_self _ _))]
    exact ih hrest _

theorem listPipelineParams_some (es : List Str) (h : ∀ e ∈ es, e.count '=' = 1)
    (m : GoMap Str (List Str)) : ∃ r, listPipelineParams es m = some r := by
  induction es generalizing m with
  | nil => exact ⟨m, rfl⟩
  | cons v rest ih =>
    have hrest : ∀ e ∈ rest, e.count '=' = 1 := fun e he => h e (List.mem_cons_of_mem _ he)
    simp only [listPipelineParams, Split_of_count_one '=' v (h v (List.mem_cons_self _ _))]
    exact ih hrest _

theorem pipelineWorkspaces_some (es : List Str)
    (h : ∀ e ∈ es, e.count '=' = 1 ∧ ';' ∉ e.takeWhile (fun c => c != '=') ∧
      (afterEq e).count ';' = 2)
    (acc : List Workspace) : ∃ r, pipelineWorkspaces es acc = some r := by
  induction es generalizing acc with
  | nil => exact ⟨acc, rfl⟩
  | cons v rest ih =>
    have hrest : ∀ e ∈ rest, e.count '=' = 1 ∧ ';' ∉ e.takeWhile (fun c => c != '=') ∧
        (afterEq e).count ';' = 2 := fun e he => h e (List.mem_cons_of_mem _ he)
    obtain ⟨h1, _, h3⟩ := h v (List.mem_cons_self _ _)
    have hlen : (Split (afterEq v) ';').length = 3 := by rw [Split_length, h3]
    have hsplit : Split v '=' = [v.takeWhile (fun c => c != '='), afterEq v] :=
      Split_of_count_one '=' v h1
    cases hs : Split (afterEq v) ';' with
    | nil => rw [hs] at hlen; simp at hlen
    | cons w0 t0 =>
      cases t0 with
      | nil => rw [hs] at hlen; simp at hlen
      | cons w1 t1 =>
        cases t1 with
        | nil => rw [hs] at hlen; simp at hlen
        | cons w2 t2 =>
          simp only [pipelineWorkspaces, hsplit, hs]
          exact ih hrest _

theorem buildPipelineRun_some_bytes (ns : Str) (dt : Time) (req : CreateRevisionRunRequest)
    (p : Pipelinerun) (hp : p.wellFormed) (hc : 4 ≤ byteLength req.CommitId) :
    ∃ pr, buildPipelineRun ns dt req p = some pr ∧ pr.Name = p.Name ∧
      pr.Stage = Sprintf p.Stage ∧ pr.NamePrefix = "st".toList ∧
      pr.NameSuffix = dt.Format020405 ++ commitFragment req.CommitId := by
  obtain ⟨h1, h2, h3⟩ := hp
  obtain ⟨params, hparams⟩ := pipelineParams_some _ h1 []
  obtain ⟨lists, hlists⟩ := listPipelineParams_some _ h2 []
  obtain ⟨wss, hwss⟩ := pipelineWorkspaces_some _ h3 []
  simp only [buildPipelineRun, hparams, hlists, hwss, slice04_some _ hc]
  exact ⟨_, rfl, rfl, rfl, rfl, rfl⟩

theorem buildPipelineRun_some (ns : Str) (dt : Time) (req : CreateRevisionRunRequest)
    (p : Pipelinerun) (hp : p.wellFormed) (hc : 4 ≤ req.CommitId.length) :
    ∃ pr, buildPipelineRun ns dt req p = some pr ∧ pr.Name = p.Name ∧
      pr.Stage = Sprintf p.Stage ∧ pr.NamePrefix = "st".toList ∧
      pr.NameSuffix = dt.Format020405 ++ commitFragment req.CommitId :=
  buildPipelineRun_some_bytes ns dt req p hp (le_trans hc (length_le_byteLength _))

theorem renderManifest_some (ns : Str) (dt : Time) (req : CreateRevisionRunRequest)
    (p : Pipelinerun) (hp : p.wellFormed) (hc : 4 ≤ req.CommitId.length) :
    renderManifest ns dt req p = some (manifestOf ns dt req p) := by
  obtain ⟨pr, hpr, _⟩ := buildPipelineRun_some ns dt req p hp hc
  simp [manifestOf, renderManifest, hpr]

theorem renderLoop_some (ns : Str) (dt : Time) (req : CreateRevisionRunRequest)
    (runs : List Pipelinerun)
    (h : ∀ p ∈ runs, renderManifest ns dt req p = some (manifestOf ns dt req p))
    (m : GoMap Int (List Str)) (stages : List Str) :
    renderLoop ns dt req runs (m, stages)
      = some (runs.foldl (fun acc p => appendToStage acc p.Stage (manifestOf ns dt req p)) m,
          stages ++ runs.map (fun p => Sprintf p.Stage)) := by
  induction runs generalizing m stages with
  | nil => simp [renderLoop]
  | cons p rest ih =>
    have hrest : ∀ q ∈ rest, renderManifest ns dt req q = some (manifestOf ns dt req q) :=
      fun q hq => h q (List.mem_cons_of_mem _ hq)
    simp only [renderLoop, h p (List.mem_cons_self _ _)]
    rw [ih hrest]
    simp

theorem RenderPipelineRuns_wellFormed (ns : Str) (dt : Time) (req : CreateRevisionRunRequest)
    (h : req.wellFormed) :
    RenderPipelineRuns ns dt req
      = some (req.Pipelineruns.foldl
          (fun acc p => appendToStage acc p.Stage (manifestOf ns dt req p)) [],
        UniqueSlice (req.Pipelineruns.map (fun p => Sprintf p.Stage))) := by
  unfold RenderPipelineRuns
  rw [renderLoop_some ns dt req _ (fun p hp => renderManifest_some ns dt req p (h.2 p hp) h.1)]
  simp

theorem renderLoop_inv (ns : Str) (dt : Time) (req : CreateRevisionRunRequest)
    (runs : List Pipelinerun) (m : GoMap Int (List Str)) (stages : List Str)
    (out : GoMap Int (List Str) × List Str)
    (h : renderLoop ns dt req runs (m, stages) = some out) :
    out = (runs.foldl (fun acc p => appendToStage acc p.Stage (manifestOf ns dt req p)) m,
        stages ++ runs.map (fun p => Sprintf p.Stage)) ∧
      ∀ p ∈ runs, renderManifest ns dt req p = some (manifestOf ns dt req p) := by
  induction runs generalizing m stages with
  | nil =>
    simp only [renderLoop, Option.some.injEq] at h
    simp [← h]
  | cons p rest ih =>
    unfold renderLoop at h
    cases hp : renderManifest ns dt req p with
    | none => simp [hp] at h
    | some manifest =>
      simp only [hp] at h
      have hm : manifestOf ns dt req p = manifest := by simp [manifestOf, hp]
      obtain ⟨h1, h2⟩ := ih _ _ h
      refine ⟨?_, ?_⟩
      · rw [h1]; simp [hm]
      · intro q hq
        rcases List.mem_cons.1 hq with e | e
        · rw [e, hp, hm]
        · exact h2 q e

theorem RenderPipelineRuns_inv (ns : Str) (dt : Time) (req : CreateRevisionRunRequest)
    (out : GoMap Int (List Str) × List Str) (h : RenderPipelineRuns ns dt req = some out) :
    out = (req.Pipelineruns.foldl
          (fun acc p => appendToStage acc p.Stage (manifestOf ns dt req p)) [],
        UniqueSlice (req.Pipelineruns.map (fun p => Sprintf p.Stage))) ∧
      ∀ p ∈ req.Pipelineruns, renderManifest ns dt req p = some (manifestOf ns dt req p) := by
  unfold RenderPipelineRuns at h
  cases hl : renderLoop ns dt req req.Pipelineruns ([], []) with
  | none => simp [hl] at h
  | some st =>
    obtain ⟨m, stages⟩ := st
    simp only [hl, Option.some.injEq] at h
    obtain ⟨h1, h2⟩ := renderLoop_inv ns dt req _ _ _ _ hl
    refine ⟨?_, h2⟩
    rw [← h]
    simp only [Prod.mk.injEq] at h1
    rw [h1.1, h1.2]
    simp

/-! ## Stage buckets -/

theorem bucket_appendToStage (m : GoMap Int (List Str)) (k : Int) (x : Str) (s : Int) :
    bucket (appendToStage m k x) s = if k = s then bucket m s ++ [x] else bucket m s := by
  unfold bucket appendToStage
  rw [GoMap.read_store]
  by_cases hk : k = s
  · subst hk; simp
  · simp [hk]

theorem bucket_foldl (f : Pipelinerun → Str) (runs : List Pipelinerun)
    (m : GoMap Int (List Str)) (s : Int) :
    bucket (runs.foldl (fun acc p => appendToStage acc p.Stage (f p)) m) s
      = bucket m s ++ (runs.filter (fun p => p.Stage = s)).map f := by
  induction runs generalizing m with
  | nil => simp
  | cons p rest ih =>
    rw [List.foldl_cons, ih, bucket_appendToStage]
    by_cases hk : p.Stage = s
    · simp [hk, List.filter_cons]
    · simp [hk, List.filter_cons]

/-- C6: for a request whose invocations are all well-formed,
`RenderPipelineRuns` returns a result when the commit identifier has at least
4 characters, and in every result it returns, for every stage number `s`, the
bucket `renderedPipelineruns[s]` is the sequence of the rendered manifests of
the invocations with stage `s`, in the order of the request. -/
theorem C6_bucket_in_request_order (pipelineNamespace : Str) (dt : Time)
    (gRPCRequest : CreateRevisionRunRequest)
    (h : ∀ p ∈ gRPCRequest.Pipelineruns, p.wellFormed) :
    (4 ≤ gRPCRequest.CommitId.length →
      ∃ out, RenderPipelineRuns pipelineNamespace dt gRPCRequest = some out) ∧
    ∀ out, RenderPipelineRuns pipelineNamespace dt gRPCRequest = some out →
      ∀ s : Int, (bucket out.1 s).map some
        = (gRPCRequest.Pipelineruns.filter (fun p => p.Stage = s)).map
            (renderManifest pipelineNamespace dt gRPCRequest) := by
  refine ⟨fun hc => ⟨_, RenderPipelineRuns_wellFormed pipelineNamespace dt gRPCRequest ⟨hc, h⟩⟩,
    ?_⟩
  intro out hout s
  obtain ⟨h1, h2⟩ := RenderPipelineRuns_inv pipelineNamespace dt gRPCRequest out hout
  rw [h1, bucket_foldl]
  simp only [bucket, GoMap.read, Option.getD_none, List.nil_append, List.map_map]
  apply List.map_congr_left
  intro p hp
  have hmem : p ∈ gRPCRequest.Pipelineruns := (List.mem_filter.1 hp).1
  simp [h2 p hmem]

/-- C6 at a request with the stages 1, 2, 1: the call returns a result, and
bucket 1 holds the manifests of the first and the third invocation, in this
order, and bucket 2 the manifest of the second. -/
theorem C6_bucket_in_request_order_witness :
    (∀ p ∈ (exampleRequest [exampleRun "build" 1, exampleRun "test" 2,
      exampleRun "scan" 1]).Pipelineruns, p.wellFormed) ∧
    (∃ out, RenderPipelineRuns "ns".toList exampleTime
        (exampleRequest [exampleRun "build" 1, exampleRun "test" 2, exampleRun "scan" 1])
          = some out) ∧
    (RenderPipelineRuns "ns".toList exampleTime
        (exampleRequest [exampleRun "build" 1, exampleRun "test" 2,
          exampleRun "scan" 1])).map
      (fun out => ((bucket out.1 1).map nameInManifest, (bucket out.1 2).map nameInManifest))
        = some (["st-1-build-040506abcd".toList, "st-1-scan-040506abcd".toList],
            ["st-2-test-040506abcd".toList]) :=
  ⟨by decide,
    (C6_bucket_in_request_order "ns".toList exampleTime
      (exampleRequest [exampleRun "build" 1, exampleRun "test" 2, exampleRun "scan" 1])
      (by decide)).1 (by decide),
    by decide⟩

/-! ## The distinct-stage list -/

theorem UniqueSlice_append (l : List Str) (x : Str) :
    UniqueSlice (l ++ [x])
      = if x ∈ UniqueSlice l then UniqueSlice l else UniqueSlice l ++ [x] := by
  simp [UniqueSlice, List.foldl_append]

theorem mem_UniqueSlice (l : List Str) (a : Str) : a ∈ UniqueSlice l ↔ a ∈ l := by
  induction l using List.reverseRecOn with
  | nil => simp [UniqueSlice]
  | append_singleton l x ih =>
    rw [UniqueSlice_append]
    by_cases hx : x ∈ UniqueSlice l
    · rw [if_pos hx, List.mem_append, List.mem_singleton, ih]
      constructor
      · exact Or.inl
      · rintro (h | h)
        · exact h
        · subst h; exact ih.1 hx
    · rw [if_neg hx, List.mem_append, List.mem_append, ih]

theorem nodup_UniqueSlice (l : List Str) : (UniqueSlice l).Nodup := by
  induction l using List.reverseRecOn with
  | nil => simp [UniqueSlice]
  | append_singleton l x ih =>
    rw [UniqueSlice_append]
    by_cases hx : x ∈ UniqueSlice l
    · rw [if_pos hx]; exact ih
    · rw [if_neg hx]
      exact List.Nodup.append ih (List.nodup_singleton x) (by simpa using hx)

theorem firstIndex_append_of_mem (a : Str) (l r : List Str) (h : a ∈ l) :
    firstIndex a (l ++ r) = firstIndex a l := by
  induction l with
  | nil => simp at h
  | cons x xs ih =>
    by_cases hx : x = a
    · simp [firstIndex, hx]
    · have hxs : a ∈ xs := by
        rcases List.mem_cons.1 h with h1 | h1
        · exact absurd h1.symm hx
        · exact h1
      simp [firstIndex, hx, ih hxs]

theorem firstIndex_append_of_not_mem (a : Str) (l r : List Str) (h : a ∉ l) :
    firstIndex a (l ++ r) = l.length + firstIndex a r := by
  induction l with
  | nil => simp
  | cons x xs ih =>
    have hx : ¬ x = a := fun e => h (e ▸ List.mem_cons_self _ _)
    have hxs : a ∉ xs := fun e => h (List.mem_cons_of_mem _ e)
    simp [firstIndex, hx, ih hxs]
    omega

theorem firstIndex_lt_length (a : Str) (l : List Str) (h : a ∈ l) :
    firstIndex a l < l.length := by
  induction l with
  | nil => simp at h
  | cons x xs ih =>
    by_cases hx : x = a
    · simp [firstIndex, hx]
    · have hxs : a ∈ xs := by
        rcases List.mem_cons.1 h with h1 | h1
        · exact absurd h1.symm hx
        · exact h1
      simp [firstIndex, hx, ih hxs]

theorem firstIndex_UniqueSlice (l : List Str) (a b : Str) (ha : a ∈ l) (hb : b ∈ l) :
    (firstIndex a (UniqueSlice l) < firstIndex b (UniqueSlice l)
      ↔ firstIndex a l < firstIndex b l) := by
  induction l using List.reverseRecOn with
  | nil => simp at ha
  | append_singleton l x ih =>
    rw [UniqueSlice_append]
    by_cases hx : x ∈ UniqueSlice l
    · have hxl : x ∈ l := (mem_UniqueSlice l x).1 hx
      have ha2 : a ∈ l := by
        rcases List.mem_append.1 ha with h | h
        · exact h
        · rw [List.mem_singleton.1 h]; exact hxl
      have hb2 : b ∈ l := by
        rcases List.mem_append.1 hb with h | h
        · exact h
        · rw [List.mem_singleton.1 h]; exact hxl
      rw [if_pos hx, firstIndex_append_of_mem a l _ ha2, firstIndex_append_of_mem b l _ hb2]
      exact ih ha2 hb2
    · have hxl : x ∉ l := fun h => hx ((mem_UniqueSlice l x).2 h)
      rw [if_neg hx]
      have key : ∀ c, c ∈ l ++ [x] →
          (c ∈ l ∧ firstIndex c (UniqueSlice l ++ [x]) = firstIndex c (UniqueSlice l) ∧
            firstIndex c (l ++ [x]) = firstIndex c l ∧
            firstIndex c (UniqueSlice l) < (UniqueSlice l).length ∧
            firstIndex c l < l.length) ∨
          (c ∉ l ∧ firstIndex c (UniqueSlice l ++ [x]) = (UniqueSlice l).length ∧
            firstIndex c (l ++ [x]) = l.length) := by
        intro c hc
        by_cases hcl : c ∈ l
        · have hcu : c ∈ UniqueSlice l := (mem_UniqueSlice l c).2 hcl
          exact Or.inl ⟨hcl, firstIndex_append_of_mem c _ _ hcu,
            firstIndex_append_of_mem c _ _ hcl,
            firstIndex_lt_length c _ hcu, firstIndex_lt_length c _ hcl⟩
        · have hcx : c = x := by
            rcases List.mem_append.1 hc with h | h
            · exact absurd h hcl
            · exact List.mem_singleton.1 h
          subst hcx
          refine Or.inr ⟨hcl, ?_, ?_⟩
          · rw [firstIndex_append_of_not_mem c _ _ hx]; simp [firstIndex]
          · rw [firstIndex_append_of_not_mem c _ _ hcl]; simp [firstIndex]
      rcases key a ha with ⟨ha2, e1, e2, l1, l2⟩ | ⟨_, e1, e2⟩ <;>
        rcases key b hb with ⟨hb2, f1, f2, m1, m2⟩ | ⟨_, f1, f2⟩
      · rw [e1, e2, f1, f2]; exact ih ha2 hb2
      · rw [e1, e2, f1, f2]; exact ⟨fun _ => l2, fun _ => l1⟩
      · rw [e1, e2, f1, f2]
        exact ⟨fun h => absurd h (by omega), fun h => absurd h (by omega)⟩
      · rw [e1, e2, f1, f2]
        exact ⟨fun h => absurd h (by omega), fun h => absurd h (by omega)⟩

/-- C7: for a request whose invocations are all well-formed,
`RenderPipelineRuns` returns a result when the commit identifier has at least
4 characters, and in every result it returns the distinct-stage list has no
duplicate, contains exactly the decimal labels of the stages of the request,
and has any two of them in the order of their first occurrences in the
request. -/
theorem C7_distinct_stages_first_seen (pipelineNamespace : Str) (dt : Time)
    (gRPCRequest : CreateRevisionRunRequest)
    (h : ∀ p ∈ gRPCRequest.Pipelineruns, p.wellFormed) :
    (4 ≤ gRPCRequest.CommitId.length →
      ∃ out, RenderPipelineRuns pipelineNamespace dt gRPCRequest = some out) ∧
    ∀ out, RenderPipelineRuns pipelineNamespace dt gRPCRequest = some out →
      out.2.Nodup ∧
      (∀ label, label ∈ out.2 ↔ ∃ p ∈ gRPCRequest.Pipelineruns, label = Sprintf p.Stage) ∧
      (∀ p ∈ gRPCRequest.Pipelineruns, ∀ q ∈ gRPCRequest.Pipelineruns,
        (firstIndex (Sprintf p.Stage) out.2 < firstIndex (Sprintf q.Stage) out.2 ↔
          firstIndex (Sprintf p.Stage) (stageLabels gRPCRequest)
            < firstIndex (Sprintf q.Stage) (stageLabels gRPCRequest))) := by
  refine ⟨fun hc => ⟨_, RenderPipelineRuns_wellFormed pipelineNamespace dt gRPCRequest ⟨hc, h⟩⟩,
    ?_⟩
  intro out hout
  obtain ⟨h1, _⟩ := RenderPipelineRuns_inv pipelineNamespace dt gRPCRequest out hout
  rw [h1]
  refine ⟨nodup_UniqueSlice _, ?_, ?_⟩
  · intro label
    simp only [mem_UniqueSlice, List.mem_map]
    constructor
    · rintro ⟨p, hp, rfl⟩; exact ⟨p, hp, rfl⟩
    · rintro ⟨p, hp, rfl⟩; exact ⟨p, hp, rfl⟩
  · intro p hp q hq
    exact firstIndex_UniqueSlice _ _ _ (List.mem_map.2 ⟨p, hp, rfl⟩)
      (List.mem_map.2 ⟨q, hq, rfl⟩)

/-- C7 at a request with the stages 1, 2, 1: the call returns a result and
the distinct-stage list is `["1", "2"]`. -/
theorem C7_distinct_stages_first_seen_witness :
    (∀ p ∈ (exampleRequest [exampleRun "build" 1, exampleRun "test" 2,
      exampleRun "scan" 1]).Pipelineruns, p.wellFormed) ∧
    (∃ out, RenderPipelineRuns "ns".toList exampleTime
        (exampleRequest [exampleRun "build" 1, exampleRun "test" 2, exampleRun "scan" 1])
          = some out) ∧
    (RenderPipelineRuns "ns".toList exampleTime
        (exampleRequest [exampleRun "build" 1, exampleRun "test" 2,
          exampleRun "scan" 1])).map Prod.snd = some ["1".toList, "2".toList] :=
  ⟨by decide,
    (C7_distinct_stages_first_seen "ns".toList exampleTime
      (exampleRequest [exampleRun "build" 1, exampleRun "test" 2, exampleRun "scan" 1])
      (by decide)).1 (by decide),
    by decide⟩

/-! ## Decimal rendering -/

theorem digitsFuel_eq (fuel n : Nat) (h : n ≤ fuel) : digitsFuel fuel n = Nat.digits 10 n := by
  induction fuel generalizing n with
  | zero =>
    have : n = 0 := by omega
    subst this
    simp [digitsFuel]
  | succ f ih =>
    by_cases hn : n = 0
    · subst hn; simp [digitsFuel]
    · have hpos : 0 < n := Nat.pos_of_ne_zero hn
      have hdiv : n / 10 ≤ f := by omega
      rw [Nat.digits_def' (by decide) hpos]
      simp [digitsFuel, hn, ih _ hdiv]

theorem formatNat_eq (n : Nat) (hn : n ≠ 0) :
    formatNat n = (Nat.digits 10 n).reverse.map Nat.digitChar := by
  simp [formatNat, hn, digitsFuel_eq n n (le_refl n)]

theorem digitChar_props : ∀ d : Nat, d < 10 →
    (Nat.digitChar d).toNat - 48 = d ∧ Nat.digitChar d ≠ '-' := by
  decide

theorem decimalValue_digits (ds : List Nat) (h : ∀ d ∈ ds, d < 10) :
    decimalValue (ds.reverse.map Nat.digitChar) = Nat.ofDigits 10 ds := by
  induction ds with
  | nil => simp [decimalValue]
  | cons d rest ih =>
    have hd := (digitChar_props d (h d (List.mem_cons_self _ _))).1
    have hrest : ∀ x ∈ rest, x < 10 := fun x hx => h x (List.mem_cons_of_mem _ hx)
    have ih2 := ih hrest
    unfold decimalValue at ih2 ⊢
    rw [List.reverse_cons, List.map_append, List.foldl_append, ih2, Nat.ofDigits_cons]
    simp only [List.map_cons, List.map_nil, List.foldl_cons, List.foldl_nil, hd]
    omega

theorem decimalValue_formatNat (n : Nat) : decimalValue (formatNat n) = n := by
  by_cases hn : n = 0
  · subst hn; decide
  · rw [formatNat_eq n hn,
      decimalValue_digits _ (fun d hd => Nat.digits_lt_base (by decide) hd),
      Nat.ofDigits_digits]

theorem formatNat_no_minus (n : Nat) : '-' ∉ formatNat n := by
  by_cases hn : n = 0
  · subst hn; decide
  · rw [formatNat_eq n hn]
    intro hmem
    obtain ⟨d, hd, hc⟩ := List.mem_map.1 hmem
    have hlt : d < 10 := Nat.digits_lt_base (by decide) (List.mem_reverse.1 hd)
    exact (digitChar_props d hlt).2 hc

theorem formatNat_ne_nil (n : Nat) : formatNat n ≠ [] := by
  by_cases hn : n = 0
  · subst hn; decide
  · rw [formatNat_eq n hn]
    simpa using Nat.digits_ne_nil_iff_ne_zero.2 hn

theorem append_sep_inj (sep : Char) (a b r1 r2 : Str) (ha : sep ∉ a) (hb : sep ∉ b)
    (h : a ++ sep :: r1 = b ++ sep :: r2) : a = b ∧ r1 = r2 := by
  have hsplit := congrArg (fun s => Split s sep) h
  simp only [Split_append sep a r1 ha, Split_append sep b r2 hb] at hsplit
  have hab : a = b := (List.cons.inj hsplit).1
  subst hab
  exact ⟨rfl, List.cons.inj (List.append_cancel_left h) |>.2⟩

theorem formatNat_sep_inj (n m : Nat) (r1 r2 : Str)
    (h : formatNat n ++ '-' :: r1 = formatNat m ++ '-' :: r2) : n = m ∧ r1 = r2 := by
  obtain ⟨h1, h2⟩ := append_sep_inj '-' _ _ r1 r2 (formatNat_no_minus n) (formatNat_no_minus m) h
  refine ⟨?_, h2⟩
  have := congrArg decimalValue h1
  rwa [decimalValue_formatNat, decimalValue_formatNat] at this

theorem formatNat_head_ne_minus (n : Nat) (r t : Str) :
    formatNat n ++ r ≠ '-' :: t := by
  intro h
  cases hf : formatNat n with
  | nil => exact formatNat_ne_nil n hf
  | cons c cs =>
    rw [hf] at h
    have hc : c = '-' := (List.cons.inj h).1
    have hmem : '-' ∈ formatNat n := by rw [hf, hc]; exact List.mem_cons_self _ _
    exact formatNat_no_minus n hmem

theorem Sprintf_sep_inj (s1 s2 : Int) (r1 r2 : Str)
    (h : Sprintf s1 ++ '-' :: r1 = Sprintf s2 ++ '-' :: r2) : s1 = s2 ∧ r1 = r2 := by
  cases s1 with
  | ofNat n =>
    cases s2 with
    | ofNat m =>
      obtain ⟨h1, h2⟩ := formatNat_sep_inj n m r1 r2 h
      exact ⟨by rw [h1], h2⟩
    | negSucc m =>
      exact absurd h (formatNat_head_ne_minus n _ _)
  | negSucc n =>
    cases s2 with
    | ofNat m =>
      exact absurd h.symm (formatNat_head_ne_minus m _ _)
    | negSucc m =>
      have h' : formatNat (n + 1) ++ '-' :: r1 = formatNat (m + 1) ++ '-' :: r2 :=
        (List.cons.inj h).2
      obtain ⟨h1, h2⟩ := formatNat_sep_inj _ _ r1 r2 h'
      have : n = m := by omega
      exact ⟨by rw [this], h2⟩

theorem stageName_inj (s1 s2 : Int) (n1 n2 suffix : Str)
    (h : stageName s1 n1 suffix = stageName s2 n2 suffix) : s1 = s2 ∧ n1 = n2 := by
  unfold stageName at h
  simp only [List.append_assoc] at h
  have h1 := List.append_cancel_left h
  have h2 : Sprintf s1 ++ '-' :: (n1 ++ '-' :: suffix)
      = Sprintf s2 ++ '-' :: (n2 ++ '-' :: suffix) := h1
  obtain ⟨hs, hr⟩ := Sprintf_sep_inj s1 s2 _ _ h2
  refine ⟨hs, ?_⟩
  exact List.append_cancel_right hr

theorem metadataName_eq (ns : Str) (dt : Time) (req : CreateRevisionRunRequest)
    (p : Pipelinerun) (hp : p.wellFormed) (hc : 4 ≤ req.CommitId.length) :
    ∃ pr, buildPipelineRun ns dt req p = some pr ∧
      metadataName pr
        = stageName p.Stage p.Name (dt.Format020405 ++ commitFragment req.CommitId) := by
  obtain ⟨pr, hpr, h1, h2, h3, h4⟩ := buildPipelineRun_some ns dt req p hp hc
  refine ⟨pr, hpr, ?_⟩
  unfold metadataName stageName
  rw [h1, h2, h3, h4]
  simp

theorem Sprintf_eq_digits (i : Int) :
    Sprintf i = (if i < 0 then "-".toList else []) ++
      (if i = 0 then "0".toList else (Nat.digits 10 i.natAbs).reverse.map Nat.digitChar) := by
  cases i with
  | ofNat n =>
    by_cases hn : n = 0
    · subst hn; decide
    · have h1 : ¬ (Int.ofNat n < 0) := by simp
      have h2 : ¬ (Int.ofNat n = 0) := by simpa using hn
      simp only [Sprintf, h1, h2, if_false, List.nil_append, Int.natAbs_ofNat]
      exact formatNat_eq n hn
  | negSucc n =>
    have h1 : Int.negSucc n < 0 := Int.negSucc_lt_zero n
    have h2 : ¬ (Int.negSucc n = 0) := by simp
    simp only [Sprintf, h1, h2, if_true, if_false, Int.natAbs_negSucc]
    rw [formatNat_eq (n + 1) (by omega)]
    rfl

/-! ## Manifest names -/

/-- C8, as the specification states it, fails: with the commit identifier
`äbcdef`, of 6 characters, the manifest name is `st-1-build-040506äbc`: the
slice takes 4 bytes, which are the 3 characters `äbc`, and the suffix has 9
characters, not the first 4 characters `äbcd` and length 10. -/
theorem C8_non_ascii_commit_counterexample :
    (exampleRun "build" 1).wellFormed ∧
    4 ≤ ("äbcdef".toList).length ∧
    (renderManifest "ns".toList exampleTime
        { exampleRequest [exampleRun "build" 1] with CommitId := "äbcdef".toList }
        (exampleRun "build" 1)).map nameInManifest
      = some "st-1-build-040506äbc".toList ∧
    ("040506äbc".toList).length = 9 := by
  decide

/-- C8, amended: for a well-formed invocation with name `n` and stage `s` in
a request whose commit identifier `c` has at least 4 bytes, rendered at time
`dt`, the manifest carries at the place of the metadata name exactly
`st-<s>-<n>-<suffix>`: `<s>` is the decimal rendering of `s`, and `<suffix>` is
two digits each of day, minute and second followed by the first 4 bytes of
`c`.  When `c` has at least 4 characters and its first 4 characters are ASCII,
these bytes are the first 4 characters of `c` and the suffix has length 10. -/
theorem C8_metadata_name (pipelineNamespace : Str) (dt : Time)
    (gRPCRequest : CreateRevisionRunRequest) (p : Pipelinerun) (hp : p.wellFormed)
    (hc : 4 ≤ byteLength gRPCRequest.CommitId) :
    ∃ pr suffix fragment, buildPipelineRun pipelineNamespace dt gRPCRequest p = some pr ∧
      renderManifest pipelineNamespace dt gRPCRequest p
        = some (templateHead ++
            ("st-".toList ++ Sprintf p.Stage ++ "-".toList ++ p.Name ++ "-".toList ++ suffix) ++
            (templateLabels pr ++ templateParams pr ++ templateWorkspaces pr)) ∧
      slice04 gRPCRequest.CommitId = some fragment ∧
      suffix = pad2 dt.Day ++ pad2 dt.Minute ++ pad2 dt.Second ++ fragment ∧
      (∀ c ∈ suffix.take 6, c.isDigit = true) ∧
      Sprintf p.Stage = (if p.Stage < 0 then "-".toList else []) ++
        (if p.Stage = 0 then "0".toList
         else (Nat.digits 10 p.Stage.natAbs).reverse.map Nat.digitChar) ∧
      (4 ≤ gRPCRequest.CommitId.length → isAscii (gRPCRequest.CommitId.take 4) →
        fragment = gRPCRequest.CommitId.take 4 ∧ suffix.length = 10) := by
  obtain ⟨pr, hpr, h1, h2, h3, h4⟩ :=
    buildPipelineRun_some_bytes pipelineNamespace dt gRPCRequest p hp hc
  have hname : metadataName pr = stageName p.Stage p.Name
      (dt.Format020405 ++ commitFragment gRPCRequest.CommitId) := by
    unfold metadataName stageName
    rw [h1, h2, h3, h4]
    simp
  refine ⟨pr, dt.Format020405 ++ commitFragment gRPCRequest.CommitId,
    commitFragment gRPCRequest.CommitId, hpr, ?_, slice04_some _ hc, rfl, ?_,
    Sprintf_eq_digits p.Stage, ?_⟩
  · simp only [renderManifest, hpr, Option.map_some', PipelineRunTemplate, hname, stageName,
      List.append_assoc]
  · have hdigit : ∀ d : Nat, d < 10 → (Nat.digitChar d).isDigit = true := by decide
    intro c hmem
    have h6 : (dt.Format020405 ++ commitFragment gRPCRequest.CommitId).take 6
        = dt.Format020405 := by
      simp [Time.Format020405, pad2]
    rw [h6] at hmem
    simp only [Time.Format020405, pad2, List.cons_append, List.nil_append, List.mem_cons,
      List.mem_singleton, List.not_mem_nil, or_false] at hmem
    rcases hmem with h | h | h | h | h | h <;> subst h <;> apply hdigit <;> omega
  · intro hlen hascii
    have hfrag := (commitFragment_of_isAscii _ hlen hascii).2
    refine ⟨hfrag, ?_⟩
    rw [hfrag]
    simp only [Time.Format020405, pad2, List.length_append, List.length_cons, List.length_nil,
      List.length_take]
    omega

/-- The amended C8 at the invocation `build` of stage 1, commit identifier
`abcdef12`, day 4, minute 5, second 6: the name is `st-1-build-040506abcd`. -/
theorem C8_metadata_name_witness :
    (exampleRun "build" 1).wellFormed ∧
    4 ≤ byteLength (exampleRequest [exampleRun "build" 1]).CommitId ∧
    (renderManifest "ns".toList exampleTime (exampleRequest [exampleRun "build" 1])
        (exampleRun "build" 1)).map nameInManifest = some "st-1-build-040506abcd".toList ∧
    ∃ pr suffix fragment, buildPipelineRun "ns".toList exampleTime
        (exampleRequest [exampleRun "build" 1]) (exampleRun "build" 1) = some pr ∧
      renderManifest "ns".toList exampleTime (exampleRequest [exampleRun "build" 1])
          (exampleRun "build" 1)
        = some (templateHead ++
            ("st-".toList ++ Sprintf (exampleRun "build" 1).Stage ++ "-".toList ++
              (exampleRun "build" 1).Name ++ "-".toList ++ suffix) ++
            (templateLabels pr ++ templateParams pr ++ templateWorkspaces pr)) ∧
      slice04 (exampleRequest [exampleRun "build" 1]).CommitId = some fragment ∧
      suffix = pad2 exampleTime.Day ++ pad2 exampleTime.Minute ++ pad2 exampleTime.Second ++
        fragment :=
  ⟨by decide, by decide, by decide,
    (C8_metadata_name "ns".toList exampleTime (exampleRequest [exampleRun "build" 1])
      (exampleRun "build" 1) (by decide) (by decide)).imp
      (fun _ h => h.imp (fun _ h2 => h2.imp
        (fun _ h3 => ⟨h3.1, h3.2.1, h3.2.2.1, h3.2.2.2.1⟩)))⟩

/-- C9: within one call on a well-formed request, two invocations whose stage
differs or whose name differs are built with the same suffix and receive
different manifest names. -/
theorem C9_stage_or_name_changes_name (pipelineNamespace : Str) (dt : Time)
    (gRPCRequest : CreateRevisionRunRequest) (h : gRPCRequest.wellFormed)
    (p q : Pipelinerun) (hp : p ∈ gRPCRequest.Pipelineruns) (hq : q ∈ gRPCRequest.Pipelineruns)
    (hne : p.Stage ≠ q.Stage ∨ p.Name ≠ q.Name) :
    ∃ prp prq, buildPipelineRun pipelineNamespace dt gRPCRequest p = some prp ∧
      buildPipelineRun pipelineNamespace dt gRPCRequest q = some prq ∧
      prp.NameSuffix = prq.NameSuffix ∧
      metadataName prp ≠ metadataName prq := by
  obtain ⟨prp, hprp, _, _, _, hsp⟩ :=
    buildPipelineRun_some pipelineNamespace dt gRPCRequest p (h.2 p hp) h.1
  obtain ⟨prq, hprq, _, _, _, hsq⟩ :=
    buildPipelineRun_some pipelineNamespace dt gRPCRequest q (h.2 q hq) h.1
  obtain ⟨prp2, hprp2, hnp⟩ := metadataName_eq pipelineNamespace dt gRPCRequest p (h.2 p hp) h.1
  obtain ⟨prq2, hprq2, hnq⟩ := metadataName_eq pipelineNamespace dt gRPCRequest q (h.2 q hq) h.1
  have e1 : prp2 = prp := Option.some.inj (hprp2.symm.trans hprp)
  have e2 : prq2 = prq := Option.some.inj (hprq2.symm.trans hprq)
  subst e1 e2
  refine ⟨prp2, prq2, hprp, hprq, by rw [hsp, hsq], ?_⟩
  intro heq
  rw [hnp, hnq] at heq
  obtain ⟨hs, hn⟩ := stageName_inj _ _ _ _ _ heq
  rcases hne with h1 | h1
  · exact h1 hs
  · exact h1 hn

/-- C9 at a request whose invocations `a-1` of stage 1 and `1` of stage 1 differ
in the name only, with a name made of `-` and digits. -/
theorem C9_stage_or_name_changes_name_witness :
    (exampleRequest [exampleRun "a-1" 1, exampleRun "1" 1]).wellFormed ∧
    ((exampleRun "a-1" 1).Stage ≠ (exampleRun "1" 1).Stage ∨
      (exampleRun "a-1" 1).Name ≠ (exampleRun "1" 1).Name) ∧
    ∃ prp prq, buildPipelineRun "ns".toList exampleTime
        (exampleRequest [exampleRun "a-1" 1, exampleRun "1" 1]) (exampleRun "a-1" 1)
          = some prp ∧
      buildPipelineRun "ns".toList exampleTime
        (exampleRequest [exampleRun "a-1" 1, exampleRun "1" 1]) (exampleRun "1" 1)
          = some prq ∧
      prp.NameSuffix = prq.NameSuffix ∧
      metadataName prp ≠ metadataName prq :=
  ⟨by decide, by decide,
    C9_stage_or_name_changes_name "ns".toList exampleTime
      (exampleRequest [exampleRun "a-1" 1, exampleRun "1" 1]) (by decide)
      (exampleRun "a-1" 1) (exampleRun "1" 1) (by decide) (by decide) (by decide)⟩

theorem filterMap_names (ns : Str) (dt : Time) (req : CreateRevisionRunRequest)
    (hc : 4 ≤ req.CommitId.length) (runs : List Pipelinerun)
    (hall : ∀ p ∈ runs, p.wellFormed) :
    runs.filterMap (fun p => (buildPipelineRun ns dt req p).map metadataName)
      = runs.map
          (fun p => stageName p.Stage p.Name (dt.Format020405 ++ commitFragment req.CommitId)) := by
  induction runs with
  | nil => rfl
  | cons p rest ih =>
    obtain ⟨pr, hpr, hname⟩ := metadataName_eq ns dt req p (hall p (List.mem_cons_self _ _)) hc
    rw [List.filterMap_cons, hpr]
    simp only [Option.map_some', List.map_cons, hname]
    rw [ih (fun q hq => hall q (List.mem_cons_of_mem _ hq))]

theorem manifestNames_eq (ns : Str) (dt : Time) (req : CreateRevisionRunRequest)
    (h : req.wellFormed) :
    manifestNames ns dt req = req.Pipelineruns.map
      (fun p => stageName p.Stage p.Name (dt.Format020405 ++ commitFragment req.CommitId)) :=
  filterMap_names ns dt req h.1 req.Pipelineruns h.2

/-- C10, as the specification states it, fails: the well-formed request with
two invocations `build` of stage 1 yields two manifests with the metadata
name `st-1-build-040506abcd`. -/
theorem C10_repeated_invocation_counterexample :
    (exampleRequest [exampleRun "build" 1, exampleRun "build" 1]).wellFormed ∧
    (RenderPipelineRuns "ns".toList exampleTime
        (exampleRequest [exampleRun "build" 1, exampleRun "build" 1])).map
      (fun out => (bucket out.1 1).map nameInManifest)
        = some ["st-1-build-040506abcd".toList, "st-1-build-040506abcd".toList] := by
  decide

/-- C10, amended: for a well-formed request, one call computes one manifest
name per invocation, and these names are pairwise distinct if and only if no
two invocations of the request share both stage and name. -/
theorem C10_names_distinct_iff (pipelineNamespace : Str) (dt : Time)
    (gRPCRequest : CreateRevisionRunRequest) (h : gRPCRequest.wellFormed) :
    (manifestNames pipelineNamespace dt gRPCRequest).length = gRPCRequest.Pipelineruns.length ∧
    ((manifestNames pipelineNamespace dt gRPCRequest).Nodup ↔
      (gRPCRequest.Pipelineruns.map (fun p => (p.Stage, p.Name))).Nodup) := by
  rw [manifestNames_eq pipelineNamespace dt gRPCRequest h]
  refine ⟨by simp, ?_⟩
  have hcomp : gRPCRequest.Pipelineruns.map
      (fun p => stageName p.Stage p.Name
        (dt.Format020405 ++ commitFragment gRPCRequest.CommitId))
      = (gRPCRequest.Pipelineruns.map (fun p => (p.Stage, p.Name))).map
          (fun sn : Int × Str =>
            stageName sn.1 sn.2 (dt.Format020405 ++ commitFragment gRPCRequest.CommitId)) := by
    simp
  rw [hcomp]
  apply List.nodup_map_iff
  intro a b hab
  obtain ⟨h1, h2⟩ := stageName_inj _ _ _ _ _ hab
  exact Prod.ext h1 h2

/-- The amended C10 at a request with the invocations `build` and `test` of
stage 1: the two names differ. -/
theorem C10_names_distinct_iff_witness :
    (exampleRequest [exampleRun "build" 1, exampleRun "test" 1]).wellFormed ∧
    (manifestNames "ns".toList exampleTime
      (exampleRequest [exampleRun "build" 1, exampleRun "test" 1])).length = 2 ∧
    (manifestNames "ns".toList exampleTime
      (exampleRequest [exampleRun "build" 1, exampleRun "test" 1])).Nodup :=
  ⟨by decide,
    (C10_names_distinct_iff "ns".toList exampleTime
      (exampleRequest [exampleRun "build" 1, exampleRun "test" 1]) (by decide)).1,
    (C10_names_distinct_iff "ns".toList exampleTime
      (exampleRequest [exampleRun "build" 1, exampleRun "test" 1]) (by decide)).2.2
      (by decide)⟩

/-! ## The commit identifier -/

theorem buildPipelineRun_none_of_short (ns : Str) (dt : Time) (req : CreateRevisionRunRequest)
    (p : Pipelinerun) (h : byteLength req.CommitId < 4) :
    buildPipelineRun ns dt req p = none := by
  have hs : slice04 req.CommitId = none := slice04_none _ h
  unfold buildPipelineRun
  rw [hs]
  split
  · rfl
  · split
    · rfl
    · split <;> rfl

/-- C11, as the specification states it, fails: with the commit identifier
`ééé`, of 3 characters and 6 bytes, the request with one well-formed
invocation is rendered, with the manifest name `st-1-build-040506éé`. -/
theorem C11_three_characters_counterexample :
    ("ééé".toList).length = 3 ∧
    (exampleRun "build" 1).wellFormed ∧
    (RenderPipelineRuns "ns".toList exampleTime
        { exampleRequest [exampleRun "build" 1] with
          CommitId := "ééé".toList }).map
      (fun out => (bucket out.1 1).map nameInManifest)
        = some ["st-1-build-040506éé".toList] := by
  decide

/-- C11, amended: a request with at least one invocation whose commit
identifier has fewer than 4 bytes has no result; when the commit identifier
has 4 bytes or more the slice `CommitId[0:4]` succeeds and every well-formed
invocation is built.  A commit identifier of 4 or more characters has 4 bytes
or more, and an ASCII commit identifier has as many bytes as characters. -/
theorem C11_short_commit_fails (pipelineNamespace : Str) (dt : Time)
    (gRPCRequest : CreateRevisionRunRequest) :
    (gRPCRequest.Pipelineruns ≠ [] → byteLength gRPCRequest.CommitId < 4 →
      RenderPipelineRuns pipelineNamespace dt gRPCRequest = none) ∧
    (4 ≤ byteLength gRPCRequest.CommitId →
      (∃ fragment, slice04 gRPCRequest.CommitId = some fragment) ∧
      ∀ p : Pipelinerun, p.wellFormed →
        ∃ pr, buildPipelineRun pipelineNamespace dt gRPCRequest p = some pr) ∧
    (4 ≤ gRPCRequest.CommitId.length → 4 ≤ byteLength gRPCRequest.CommitId) ∧
    (isAscii gRPCRequest.CommitId →
      byteLength gRPCRequest.CommitId = gRPCRequest.CommitId.length) := by
  refine ⟨?_, ?_, fun h => le_trans h (length_le_byteLength _), byteLength_of_isAscii _⟩
  · intro hne hshort
    apply RenderPipelineRuns_none
    cases hruns : gRPCRequest.Pipelineruns with
    | nil => exact absurd hruns hne
    | cons p rest =>
      refine ⟨p, List.mem_cons_self _ _, ?_⟩
      unfold renderManifest
      rw [buildPipelineRun_none_of_short _ _ _ p hshort]
      rfl
  · intro hc
    refine ⟨⟨_, slice04_some _ hc⟩, ?_⟩
    intro p hp
    obtain ⟨pr, hpr, _⟩ := buildPipelineRun_some_bytes pipelineNamespace dt gRPCRequest p hp hc
    exact ⟨pr, hpr⟩

/-- The amended C11 at the commit identifier `abc` with one well-formed
invocation (no result), and at `abcdef12` (the slice is `abcd`). -/
theorem C11_short_commit_fails_witness :
    byteLength "abc".toList < 4 ∧
    RenderPipelineRuns "ns".toList exampleTime
      { exampleRequest [exampleRun "build" 1] with CommitId := "abc".toList } = none ∧
    slice04 (exampleRequest [exampleRun "build" 1]).CommitId = some "abcd".toList ∧
    ∃ fragment, slice04 (exampleRequest [exampleRun "build" 1]).CommitId = some fragment :=
  ⟨by decide,
    (C11_short_commit_fails "ns".toList exampleTime
      { exampleRequest [exampleRun "build" 1] with CommitId := "abc".toList }).1
      (by decide) (by decide),
    by decide,
    ((C11_short_commit_fails "ns".toList exampleTime
      (exampleRequest [exampleRun "build" 1])).2.1 (by decide)).1⟩

/-! ## Entries with more than one equals sign -/

theorem Split_key_value (k v : Str) (hk : '=' ∉ k) :
    ∃ t, Split (k ++ '=' :: v) '=' = k :: v.takeWhile (fun c => c != '=') :: t := by
  obtain ⟨t, ht⟩ := Split_head '=' v
  exact ⟨t, by rw [Split_append _ _ _ hk, ht]⟩

/-- C15, as the specification states it, fails: the entry `url=a=b` stores
`a` under `url`, not `a=b`. -/
theorem C15_second_equals_counterexample :
    pipelineParams (Split "url=a=b".toList ',') [] = some [("url".toList, "a".toList)] ∧
    pipelineParams (Split "url=a=b".toList ',') [] ≠ some [("url".toList, "a=b".toList)] ∧
    listPipelineParams (Split "url=a=b;c".toList ',') []
      = some [("url".toList, ["a".toList])] := by
  decide

/-- C15, amended: in the scalar-params and in the list-params encoding an
entry `k=v` is split at every `=`.  The key is the part before the first `=`,
and the value is the part of `v` before its first `=` (all of `v` when it has
none): the scalar loop stores its trimmed form, the list loop the pieces of
its trimmed form; what follows a second `=` is dropped. -/
theorem C15_value_up_to_second_equals (k v : Str) (hk : '=' ∉ k)
    (rest : List Str) (m : GoMap Str Str) (lm : GoMap Str (List Str)) :
    pipelineParams ((k ++ '=' :: v) :: rest) m
      = pipelineParams rest
          (m.store (TrimSpace k) (TrimSpace (v.takeWhile (fun c => c != '=')))) ∧
    listPipelineParams ((k ++ '=' :: v) :: rest) lm
      = listPipelineParams rest
          (lm.store (TrimSpace k) (Split (TrimSpace (v.takeWhile (fun c => c != '='))) ';')) ∧
    ('=' ∉ v → v.takeWhile (fun c => c != '=') = v) := by
  obtain ⟨t, ht⟩ := Split_key_value k v hk
  refine ⟨by simp only [pipelineParams, ht], by simp only [listPipelineParams, ht], ?_⟩
  intro hv
  rw [List.takeWhile_eq_self_iff]
  intro c hc
  have : c ≠ '=' := fun e => hv (e ▸ hc)
  simpa using this

/-- The amended C15 at the entry `url=a=b`. -/
theorem C15_value_up_to_second_equals_witness :
    '=' ∉ "url".toList ∧
    pipelineParams (("url".toList ++ '=' :: "a=b".toList) :: []) []
      = pipelineParams []
          (GoMap.store [] (TrimSpace "url".toList)
            (TrimSpace ("a=b".toList.takeWhile (fun c => c != '=')))) :=
  ⟨by decide, (C15_value_up_to_second_equals "url".toList "a=b".toList (by decide) [] [] []).1⟩

/-! ## A failing invocation -/

/-- C16, as the specification states it, fails: in the request with the
invocations `build`, `test` and `scan`, where `test` has the scalar-params
entry `a`, the call has no result, although `build` and `scan` are
well-formed. -/
theorem C16_no_partial_result_counterexample :
    (exampleRun "build" 1).wellFormed ∧ (exampleRun "scan" 1).wellFormed ∧
    RenderPipelineRuns "ns".toList exampleTime
      (exampleRequest [exampleRun "build" 1,
        { exampleRun "test" 2 with Params := "a".toList }, exampleRun "scan" 1]) = none := by
  decide

/-- C16, amended: `RenderPipelineRuns` returns a result exactly when every
invocation of the request parses and is named; as soon as one invocation
fails the call has no result at all, whatever its siblings are. -/
theorem C16_one_failure_aborts (pipelineNamespace : Str) (dt : Time)
    (gRPCRequest : CreateRevisionRunRequest) :
    ((∃ p ∈ gRPCRequest.Pipelineruns,
        renderManifest pipelineNamespace dt gRPCRequest p = none) →
      RenderPipelineRuns pipelineNamespace dt gRPCRequest = none) ∧
    ((∀ p ∈ gRPCRequest.Pipelineruns,
        renderManifest pipelineNamespace dt gRPCRequest p ≠ none) →
      ∃ out, RenderPipelineRuns pipelineNamespace dt gRPCRequest = some out) := by
  constructor
  · exact RenderPipelineRuns_none pipelineNamespace dt gRPCRequest
  · intro hall
    cases hr : RenderPipelineRuns pipelineNamespace dt gRPCRequest with
    | some out => exact ⟨out, rfl⟩
    | none =>
      exfalso
      unfold RenderPipelineRuns at hr
      have hsome : ∀ p ∈ gRPCRequest.Pipelineruns,
          renderManifest pipelineNamespace dt gRPCRequest p
            = some (manifestOf pipelineNamespace dt gRPCRequest p) := by
        intro p hp
        cases hm : renderManifest pipelineNamespace dt gRPCRequest p with
        | none => exact absurd hm (hall p hp)
        | some x => simp [manifestOf, hm]
      rw [renderLoop_some pipelineNamespace dt gRPCRequest _ hsome] at hr
      simp at hr

/-- The amended C16 at the request with the invocations `build`, `test` and
`scan`, where `test` has the scalar-params entry `a`. -/
theorem C16_one_failure_aborts_witness :
    (∃ p ∈ (exampleRequest [exampleRun "build" 1,
        { exampleRun "test" 2 with Params := "a".toList }, exampleRun "scan" 1]).Pipelineruns,
      renderManifest "ns".toList exampleTime (exampleRequest [exampleRun "build" 1,
        { exampleRun "test" 2 with Params := "a".toList }, exampleRun "scan" 1]) p = none) ∧
    RenderPipelineRuns "ns".toList exampleTime (exampleRequest [exampleRun "build" 1,
        { exampleRun "test" 2 with Params := "a".toList }, exampleRun "scan" 1]) = none :=
  ⟨by decide,
    (C16_one_failure_aborts "ns".toList exampleTime (exampleRequest [exampleRun "build" 1,
        { exampleRun "test" 2 with Params := "a".toList }, exampleRun "scan" 1])).1
      (by decide)⟩

/-! ## The workspaces section -/

theorem pipelineWorkspaces_joinEntries (ws : List WorkspaceFields) (hne : ws ≠ [])
    (h : ∀ w ∈ ws, w.clean) :
    pipelineWorkspaces (Split (joinEntries (ws.map workspaceEntry)) ',') []
      = some (ws.map WorkspaceFields.binding) := by
  rw [Split_joinEntries]
  · simpa using pipelineWorkspaces_entries ws h []
  · simpa using hne
  · intro e he
    obtain ⟨w, hw, rfl⟩ := List.mem_map.1 he
    exact workspaceEntry_no_comma w (h w hw)

theorem buildPipelineRun_eq (ns : Str) (dt : Time) (req : CreateRevisionRunRequest)
    (p : Pipelinerun) (a : GoMap Str Str) (b : GoMap Str (List Str)) (c : List Workspace)
    (ha : pipelineParams (Split p.Params ',') [] = some a)
    (hb : listPipelineParams (Split p.Listparams ',') [] = some b)
    (hw : pipelineWorkspaces (Split p.Workspaces ',') [] = some c)
    (hc : 4 ≤ req.CommitId.length) :
    ∃ pr, buildPipelineRun ns dt req p = some pr ∧ pr.Params = a ∧ pr.ListParams = b ∧
      pr.Workspaces = c := by
  simp only [buildPipelineRun, ha, hb, hw,
    slice04_some _ (le_trans hc (length_le_byteLength _))]
  exact ⟨_, rfl, rfl, rfl, rfl⟩

/-- C17, as the specification states it, fails: for the entry
`ws=pvc;short;ref` the section has the inner line `ref: short`, not
`short: ref`. -/
theorem C17_inner_key_counterexample :
    (buildPipelineRun "ns".toList exampleTime (exampleRequest [exampleRun "build" 1])
        (exampleRun "build" 1)).map templateWorkspaces
      = some "\n  workspaces:\n  - name: ws\n    pvc:\n      ref: short\n".toList ∧
    (buildPipelineRun "ns".toList exampleTime (exampleRequest [exampleRun "build" 1])
        (exampleRun "build" 1)).map templateWorkspaces
      ≠ some "\n  workspaces:\n  - name: ws\n    pvc:\n      short: ref\n".toList := by
  decide

/-- C17, amended: for a well-formed invocation whose workspaces encoding has
the entries `n=a;b;c`, the manifest ends with the `workspaces:` section, which
is the concatenation, in encoding order, of one block per entry: `- name: n`,
then the nested key `a:` holding `c: b` (third sub-field as inner key, second
sub-field as its value), every field trimmed. -/
theorem C17_workspaces_section (pipelineNamespace : Str) (dt : Time)
    (gRPCRequest : CreateRevisionRunRequest) (p : Pipelinerun) (ws : List WorkspaceFields)
    (hne : ws ≠ []) (hclean : ∀ w ∈ ws, w.clean)
    (hw : p.Workspaces = joinEntries (ws.map workspaceEntry))
    (hp : p.wellFormed) (hc : 4 ≤ gRPCRequest.CommitId.length) :
    ∃ pr, buildPipelineRun pipelineNamespace dt gRPCRequest p = some pr ∧
      templateWorkspaces pr
        = "\n  workspaces:".toList ++ (ws.map workspaceBlock).flatten ++ "\n".toList ∧
      renderManifest pipelineNamespace dt gRPCRequest p
        = some (templateHead ++ metadataName pr ++ templateLabels pr ++ templateParams pr ++
            ("\n  workspaces:".toList ++ (ws.map workspaceBlock).flatten ++ "\n".toList)) := by
  obtain ⟨a, ha⟩ := pipelineParams_some _ hp.1 []
  obtain ⟨b, hb⟩ := listPipelineParams_some _ hp.2.1 []
  have hwss : pipelineWorkspaces (Split p.Workspaces ',') []
      = some (ws.map WorkspaceFields.binding) := by
    rw [hw]; exact pipelineWorkspaces_joinEntries ws hne hclean
  obtain ⟨pr, hpr, _, _, hprw⟩ :=
    buildPipelineRun_eq pipelineNamespace dt gRPCRequest p a b _ ha hb hwss hc
  have hsec : templateWorkspaces pr
      = "\n  workspaces:".toList ++ (ws.map workspaceBlock).flatten ++ "\n".toList := by
    unfold templateWorkspaces
    rw [hprw, List.map_map]
    rfl
  refine ⟨pr, hpr, hsec, ?_⟩
  rw [← hsec]
  simp [renderManifest, hpr, PipelineRunTemplate]

/-- The amended C17 at the entry `ws=pvc;short;ref`. -/
theorem C17_workspaces_section_witness :
    (exampleRun "build" 1).Workspaces = joinEntries
      ([⟨"ws".toList, "pvc".toList, "short".toList, "ref".toList⟩].map workspaceEntry) ∧
    (exampleRun "build" 1).wellFormed ∧
    ∃ pr, buildPipelineRun "ns".toList exampleTime (exampleRequest [exampleRun "build" 1])
        (exampleRun "build" 1) = some pr ∧
      templateWorkspaces pr
        = "\n  workspaces:".toList ++
          ([⟨"ws".toList, "pvc".toList, "short".toList, "ref".toList⟩].map
            workspaceBlock).flatten ++ "\n".toList :=
  ⟨by decide, by decide,
    (C17_workspaces_section "ns".toList exampleTime (exampleRequest [exampleRun "build" 1])
      (exampleRun "build" 1) [⟨"ws".toList, "pvc".toList, "short".toList, "ref".toList⟩]
      (by decide) (by decide) (by decide) (by decide) (by decide)).imp
      (fun _ h => ⟨h.1, h.2.1⟩)⟩

/-! ## Composition over the invocation list -/

theorem renderManifest_withRuns (ns : Str) (dt : Time) (req : CreateRevisionRunRequest)
    (runs : List Pipelinerun) (p : Pipelinerun) :
    renderManifest ns dt (withRuns req runs) p = renderManifest ns dt req p := rfl

theorem manifestOf_withRuns (ns : Str) (dt : Time) (req : CreateRevisionRunRequest)
    (runs : List Pipelinerun) (p : Pipelinerun) :
    manifestOf ns dt (withRuns req runs) p = manifestOf ns dt req p := rfl

theorem bucket_withRuns (ns : Str) (dt : Time) (req : CreateRevisionRunRequest)
    (runs : List Pipelinerun) (hruns : ∀ p ∈ runs, p.wellFormed)
    (hc : 4 ≤ req.CommitId.length) :
    ∃ out, RenderPipelineRuns ns dt (withRuns req runs) = some out ∧
      ∀ s, bucket out.1 s = (runs.filter (fun p => p.Stage = s)).map (manifestOf ns dt req) := by
  have hwf : (withRuns req runs).wellFormed := ⟨hc, hruns⟩
  refine ⟨_, RenderPipelineRuns_wellFormed ns dt (withRuns req runs) hwf, ?_⟩
  intro s
  rw [bucket_foldl]
  simp only [bucket, GoMap.read, Option.getD_none, List.nil_append]
  rfl

/-- C19: for a fixed time, namespace and request identity, and for
well-formed invocation lists `xs` and `ys`, the call on `xs ++ ys` and the
calls on `xs` and on `ys` return results, and every stage bucket of the first
is the bucket for `xs` followed by the bucket for `ys`; the manifest of an
invocation does not depend on the invocation list of the request. -/
theorem C19_buckets_compose (pipelineNamespace : Str) (dt : Time)
    (gRPCRequest : CreateRevisionRunRequest) (xs ys : List Pipelinerun)
    (hx : ∀ p ∈ xs, p.wellFormed) (hy : ∀ p ∈ ys, p.wellFormed)
    (hc : 4 ≤ gRPCRequest.CommitId.length) :
    (∃ o ox oy,
      RenderPipelineRuns pipelineNamespace dt (withRuns gRPCRequest (xs ++ ys)) = some o ∧
      RenderPipelineRuns pipelineNamespace dt (withRuns gRPCRequest xs) = some ox ∧
      RenderPipelineRuns pipelineNamespace dt (withRuns gRPCRequest ys) = some oy ∧
      ∀ s : Int, bucket o.1 s = bucket ox.1 s ++ bucket oy.1 s) ∧
    ∀ (runs : List Pipelinerun) (p : Pipelinerun),
      renderManifest pipelineNamespace dt (withRuns gRPCRequest runs) p
        = renderManifest pipelineNamespace dt gRPCRequest p := by
  refine ⟨?_, fun runs p => rfl⟩
  have hxy : ∀ p ∈ xs ++ ys, p.wellFormed := by
    intro p hp
    rcases List.mem_append.1 hp with h | h
    · exact hx p h
    · exact hy p h
  obtain ⟨o, ho, hbo⟩ := bucket_withRuns pipelineNamespace dt gRPCRequest (xs ++ ys) hxy hc
  obtain ⟨ox, hox, hbx⟩ := bucket_withRuns pipelineNamespace dt gRPCRequest xs hx hc
  obtain ⟨oy, hoy, hby⟩ := bucket_withRuns pipelineNamespace dt gRPCRequest ys hy hc
  refine ⟨o, ox, oy, ho, hox, hoy, ?_⟩
  intro s
  rw [hbo, hbx, hby, List.filter_append, List.map_append]

/-- C19 at the lists `[build (1), test (2)]` and `[scan (1)]`. -/
theorem C19_buckets_compose_witness :
    (∀ p ∈ [exampleRun "build" 1, exampleRun "test" 2], p.wellFormed) ∧
    (∀ p ∈ [exampleRun "scan" 1], p.wellFormed) ∧
    ∃ o ox oy,
      RenderPipelineRuns "ns".toList exampleTime (withRuns (exampleRequest [])
        ([exampleRun "build" 1, exampleRun "test" 2] ++ [exampleRun "scan" 1])) = some o ∧
      RenderPipelineRuns "ns".toList exampleTime (withRuns (exampleRequest [])
        [exampleRun "build" 1, exampleRun "test" 2]) = some ox ∧
      RenderPipelineRuns "ns".toList exampleTime (withRuns (exampleRequest [])
        [exampleRun "scan" 1]) = some oy ∧
      ∀ s : Int, bucket o.1 s = bucket ox.1 s ++ bucket oy.1 s :=
  ⟨by decide, by decide,
    (C19_buckets_compose "ns".toList exampleTime (exampleRequest [])
      [exampleRun "build" 1, exampleRun "test" 2] [exampleRun "scan" 1]
      (by decide) (by decide) (by decide)).1⟩

/-! ## The buckets partition the invocations -/

theorem mem_domain_appendToStage (m : GoMap Int (List Str)) (k : Int) (x : Str) (s : Int) :
    s ∈ (appendToStage m k x).domain ↔ s = k ∨ s ∈ m.domain := by
  rw [GoMap.mem_domain_iff, GoMap.mem_domain_iff]
  unfold appendToStage
  rw [GoMap.read_store]
  by_cases hk : k = s
  · simp [hk]
  · have hk2 : ¬ s = k := fun e => hk e.symm
    simp [hk, hk2]

theorem mem_domain_store {κ α : Type} [DecidableEq κ] (m : GoMap κ α) (k : κ) (v : α) (s : κ) :
    s ∈ (m.store k v).domain ↔ s = k ∨ s ∈ m.domain := by
  rw [GoMap.mem_domain_iff, GoMap.mem_domain_iff, GoMap.read_store]
  by_cases hk : k = s
  · simp [hk]
  · have hk2 : ¬ s = k := fun e => hk e.symm
    simp [hk, hk2]

theorem nodup_domain_store {κ α : Type} [DecidableEq κ] (m : GoMap κ α) (k : κ) (v : α)
    (h : m.domain.Nodup) : (m.store k v).domain.Nodup := by
  induction m with
  | nil => simp [GoMap.store, GoMap.domain]
  | cons e rest ih =>
    obtain ⟨k1, v1⟩ := e
    have hn : k1 ∉ GoMap.domain rest ∧ (GoMap.domain rest).Nodup := by
      simpa [GoMap.domain] using h
    by_cases h1 : k1 = k
    · simpa [GoMap.store, GoMap.domain, h1] using h
    · have hmem : k1 ∉ (GoMap.store rest k v).domain := by
        rw [mem_domain_store]
        exact fun hor => hor.elim h1 hn.1
      have ih2 := ih hn.2
      simp only [GoMap.store, h1, if_false, GoMap.domain, List.map_cons, List.nodup_cons]
      exact ⟨hmem, ih2⟩

theorem manifestCount_appendToStage (m : GoMap Int (List Str)) (k : Int) (x : Str) :
    manifestCount (appendToStage m k x) = manifestCount m + 1 := by
  induction m with
  | nil => simp [appendToStage, GoMap.store, GoMap.read, manifestCount]
  | cons e rest ih =>
    obtain ⟨k1, v1⟩ := e
    by_cases h1 : k1 = k
    · simp [appendToStage, GoMap.store, GoMap.read, manifestCount, h1]
      omega
    · unfold appendToStage manifestCount at ih ⊢
      simp only [GoMap.store, GoMap.read, h1, if_false, List.map_cons, List.sum_cons]
      rw [ih]
      omega

theorem nonempty_appendToStage (m : GoMap Int (List Str)) (k : Int) (x : Str)
    (h : ∀ e ∈ m, e.2 ≠ []) : ∀ e ∈ appendToStage m k x, e.2 ≠ [] := by
  induction m with
  | nil =>
    intro e he
    simp [appendToStage, GoMap.store, GoMap.read] at he
    simp [he]
  | cons f rest ih =>
    obtain ⟨k1, v1⟩ := f
    have hrest : ∀ e ∈ rest, e.2 ≠ [] := fun e he => h e (List.mem_cons_of_mem _ he)
    intro e he
    by_cases h1 : k1 = k
    · simp only [appendToStage, GoMap.store, GoMap.read, h1, if_true, Option.getD_some,
        List.mem_cons] at he
      rcases he with he | he
      · simp [he]
      · exact hrest e he
    · unfold appendToStage at ih he
      simp only [GoMap.store, GoMap.read, h1, if_false, List.mem_cons] at he
      rcases he with he | he
      · rw [he]; exact h (k1, v1) (List.mem_cons_self _ _)
      · exact ih hrest e he

theorem buckets_foldl (f : Pipelinerun → Str) (runs : List Pipelinerun)
    (m : GoMap Int (List Str)) (hn : m.domain.Nodup) (he : ∀ e ∈ m, e.2 ≠ []) :
    let r := runs.foldl (fun acc p => appendToStage acc p.Stage (f p)) m
    (∀ s, s ∈ r.domain ↔ s ∈ m.domain ∨ ∃ p ∈ runs, p.Stage = s) ∧ r.domain.Nodup ∧
      (∀ e ∈ r, e.2 ≠ []) ∧ manifestCount r = manifestCount m + runs.length := by
  induction runs generalizing m with
  | nil => exact ⟨fun s => by simp, hn, he, by simp⟩
  | cons p rest ih =>
    have hn2 : (appendToStage m p.Stage (f p)).domain.Nodup := nodup_domain_store _ _ _ hn
    have he2 := nonempty_appendToStage m p.Stage (f p) he
    obtain ⟨i1, i2, i3, i4⟩ := ih (appendToStage m p.Stage (f p)) hn2 he2
    refine ⟨?_, i2, i3, ?_⟩
    · intro s
      rw [List.foldl_cons, i1 s, mem_domain_appendToStage]
      constructor
      · rintro ((h | h) | ⟨q, hq, hs⟩)
        · exact Or.inr ⟨p, List.mem_cons_self _ _, h.symm⟩
        · exact Or.inl h
        · exact Or.inr ⟨q, List.mem_cons_of_mem _ hq, hs⟩
      · rintro (h | ⟨q, hq, hs⟩)
        · exact Or.inl (Or.inr h)
        · rcases List.mem_cons.1 hq with e | e
          · subst e; exact Or.inl (Or.inl hs.symm)
          · exact Or.inr ⟨q, e, hs⟩
    · rw [List.foldl_cons, i4, manifestCount_appendToStage, List.length_cons]
      omega

/-- C20: for a well-formed request, `RenderPipelineRuns` returns a result
whose bucket map has as keys exactly the stage numbers of the request, each
once, has no empty bucket, and holds as many manifests in all as the request
has invocations. -/
theorem C20_buckets_partition (pipelineNamespace : Str) (dt : Time)
    (gRPCRequest : CreateRevisionRunRequest) (h : gRPCRequest.wellFormed) :
    ∃ out, RenderPipelineRuns pipelineNamespace dt gRPCRequest = some out ∧
      (∀ s : Int, s ∈ out.1.domain ↔ ∃ p ∈ gRPCRequest.Pipelineruns, p.Stage = s) ∧
      out.1.domain.Nodup ∧
      (∀ e ∈ out.1, e.2 ≠ []) ∧
      (∀ s ∈ out.1.domain, bucket out.1 s ≠ []) ∧
      manifestCount out.1 = gRPCRequest.Pipelineruns.length := by
  refine ⟨_, RenderPipelineRuns_wellFormed pipelineNamespace dt gRPCRequest h, ?_⟩
  obtain ⟨i1, i2, i3, i4⟩ := buckets_foldl (manifestOf pipelineNamespace dt gRPCRequest)
    gRPCRequest.Pipelineruns [] (by simp [GoMap.domain]) (by simp)
  refine ⟨?_, i2, i3, ?_, ?_⟩
  · intro s
    rw [i1 s]
    simp [GoMap.domain]
  · intro s hs
    rw [i1 s] at hs
    rcases hs with hs | ⟨p, hp, hps⟩
    · simp [GoMap.domain] at hs
    · rw [bucket_foldl]
      have hmem : p ∈ gRPCRequest.Pipelineruns.filter (fun q => q.Stage = s) := by
        rw [List.mem_filter]; exact ⟨hp, by simpa using hps⟩
      intro hnil
      have hlen := congrArg List.length hnil
      simp only [List.length_append, List.length_map, List.length_nil] at hlen
      have hpos := List.length_pos_of_mem hmem
      omega
  · rw [i4]
    simp [manifestCount]

/-- C20 at a request with the stages 1, 2, 1: two buckets, of sizes 2 and 1. -/
theorem C20_buckets_partition_witness :
    (exampleRequest [exampleRun "build" 1, exampleRun "test" 2,
      exampleRun "scan" 1]).wellFormed ∧
    (RenderPipelineRuns "ns".toList exampleTime
        (exampleRequest [exampleRun "build" 1, exampleRun "test" 2,
          exampleRun "scan" 1])).map
      (fun out => out.1.map (fun e => (e.1, e.2.length))) = some [(1, 2), (2, 1)] ∧
    ∃ out, RenderPipelineRuns "ns".toList exampleTime
        (exampleRequest [exampleRun "build" 1, exampleRun "test" 2, exampleRun "scan" 1])
          = some out ∧
      (∀ s : Int, s ∈ out.1.domain ↔
        ∃ p ∈ (exampleRequest [exampleRun "build" 1, exampleRun "test" 2,
          exampleRun "scan" 1]).Pipelineruns, p.Stage = s) ∧
      manifestCount out.1 = 3 :=
  ⟨by decide, by decide,
    (C20_buckets_partition "ns".toList exampleTime
      (exampleRequest [exampleRun "build" 1, exampleRun "test" 2, exampleRun "scan" 1])
      (by decide)).imp (fun _ h => ⟨h.1, h.2.1, h.2.2.2.2.2⟩)⟩


/-! ## Normalising the encoded quote -/

theorem dropPrefix?_append (p r : Str) : dropPrefix? p (p ++ r) = some r := by
  induction p with
  | nil => cases r <;> rfl
  | cons a p ih => simp [dropPrefix?, ih]

theorem dropPrefix?_eq_some (p s r : Str) (h : dropPrefix? p s = some r) : s = p ++ r := by
  induction p generalizing s with
  | nil =>
    cases s <;> simp [dropPrefix?] at h <;> simp [h]
  | cons a p ih =>
    cases s with
    | nil => simp [dropPrefix?] at h
    | cons c s =>
      by_cases hac : a = c
      · subst hac
        simp only [dropPrefix?, if_true] at h
        rw [ih s h]; rfl
      · simp [dropPrefix?, hac] at h

theorem dropPrefix?_of_prefix (p s : Str) (h : p <+: s) : ∃ r, dropPrefix? p s = some r := by
  obtain ⟨r, rfl⟩ := h
  exact ⟨r, dropPrefix?_append p r⟩

theorem replaceSkip_drop (old new : Str) (k : Nat) (s : Str) :
    replaceSkip old new k s = replaceSkip old new 0 (s.drop k) := by
  induction s generalizing k with
  | nil => cases k <;> simp [replaceSkip]
  | cons c cs ih =>
    cases k with
    | zero => rfl
    | succ k => simp only [replaceSkip, List.drop_succ_cons]; exact ih k

theorem replaceSkip_zero_cons (old new : Str) (c : Char) (cs : Str) :
    replaceSkip old new 0 (c :: cs)
      = match dropPrefix? old (c :: cs) with
        | some _ => new ++ replaceSkip old new (old.length - 1) cs
        | none => c :: replaceSkip old new 0 cs := by
  simp only [replaceSkip]

theorem ReplaceAll_nil (old new : Str) : ReplaceAll [] old new = [] := rfl

theorem ReplaceAll_match (o : Char) (os new rest : Str) :
    ReplaceAll ((o :: os) ++ rest) (o :: os) new = new ++ ReplaceAll rest (o :: os) new := by
  have hd : dropPrefix? (o :: os) (o :: (os ++ rest)) = some rest :=
    dropPrefix?_append (o :: os) rest
  unfold ReplaceAll
  have hdrop : replaceSkip (o :: os) new ((o :: os).length - 1) (os ++ rest)
      = replaceSkip (o :: os) new 0 rest := by
    rw [replaceSkip_drop]
    simp
  show replaceSkip (o :: os) new 0 (o :: (os ++ rest)) = new ++ replaceSkip (o :: os) new 0 rest
  rw [replaceSkip_zero_cons, hd]
  exact congrArg _ hdrop

theorem ReplaceAll_step (old new : Str) (c : Char) (cs : Str)
    (h : dropPrefix? old (c :: cs) = none) :
    ReplaceAll (c :: cs) old new = c :: ReplaceAll cs old new := by
  unfold ReplaceAll
  rw [replaceSkip_zero_cons, h]

theorem ReplaceAll_cases (o : Char) (os new : Str) (c : Char) (cs : Str) :
    (∃ rest, c :: cs = (o :: os) ++ rest ∧ rest.length ≤ cs.length ∧
      ReplaceAll (c :: cs) (o :: os) new = new ++ ReplaceAll rest (o :: os) new) ∨
    (¬ (o :: os) <+: c :: cs ∧
      ReplaceAll (c :: cs) (o :: os) new = c :: ReplaceAll cs (o :: os) new) := by
  cases hd : dropPrefix? (o :: os) (c :: cs) with
  | some rest =>
    left
    have hs := dropPrefix?_eq_some _ _ _ hd
    refine ⟨rest, hs, ?_, ?_⟩
    · have hl := congrArg List.length hs
      simp only [List.length_cons, List.length_append] at hl
      omega
    · rw [hs]; exact ReplaceAll_match o os new rest
  | none =>
    right
    refine ⟨?_, ReplaceAll_step _ _ c cs hd⟩
    intro hp
    obtain ⟨r, hr⟩ := dropPrefix?_of_prefix _ _ hp
    rw [hd] at hr
    exact absurd hr (by simp)

theorem prefix_of_normalised (w : Str) (hw : ' ' ∉ w) (s : Str)
    (h : w <+: ReplaceAll s encodedQuote " ".toList) : w <+: s := by
  induction w generalizing s with
  | nil => exact List.nil_prefix
  | cons a w ih =>
    have ha : a ≠ ' ' := fun e => hw (e ▸ List.mem_cons_self _ _)
    have hw2 : ' ' ∉ w := fun e => hw (List.mem_cons_of_mem _ e)
    cases s with
    | nil =>
      rw [ReplaceAll_nil] at h
      exact absurd (List.prefix_nil.1 h) (by simp)
    | cons c cs =>
      rcases ReplaceAll_cases '&' "#34;".toList " ".toList c cs with
        ⟨rest, _, _, hr⟩ | ⟨_, hr⟩
      · have hr2 : ReplaceAll (c :: cs) encodedQuote " ".toList
            = ' ' :: ReplaceAll rest encodedQuote " ".toList := hr
        rw [hr2] at h
        exact absurd (List.cons_prefix_cons.1 h).1 ha
      · have hr2 : ReplaceAll (c :: cs) encodedQuote " ".toList
            = c :: ReplaceAll cs encodedQuote " ".toList := hr
        rw [hr2] at h
        obtain ⟨h1, h2⟩ := List.cons_prefix_cons.1 h
        exact List.cons_prefix_cons.2 ⟨h1, ih hw2 cs h2⟩

theorem normalised_no_quote (n : Nat) (s : Str) (hn : s.length ≤ n) :
    ¬ encodedQuote <:+: ReplaceAll s encodedQuote " ".toList := by
  induction n generalizing s with
  | zero =>
    have : s = [] := List.length_eq_zero.1 (by omega)
    subst this
    rw [ReplaceAll_nil]
    intro h
    exact absurd (List.infix_nil.1 h) (by decide)
  | succ n ih =>
    cases s with
    | nil =>
      rw [ReplaceAll_nil]
      intro h
      exact absurd (List.infix_nil.1 h) (by decide)
    | cons c cs =>
      have hcs : cs.length ≤ n := by simpa using hn
      rcases ReplaceAll_cases '&' "#34;".toList " ".toList c cs with
        ⟨rest, _, hlen, hr⟩ | ⟨hnp, hr⟩
      · have hr2 : ReplaceAll (c :: cs) encodedQuote " ".toList
            = ' ' :: ReplaceAll rest encodedQuote " ".toList := hr
        rw [hr2, List.infix_cons_iff]
        rintro (h | h)
        · exact absurd (List.cons_prefix_cons.1 h).1 (by decide)
        · exact ih rest (by omega) h
      · have hr2 : ReplaceAll (c :: cs) encodedQuote " ".toList
            = c :: ReplaceAll cs encodedQuote " ".toList := hr
        rw [hr2, List.infix_cons_iff]
        rintro (h | h)
        · obtain ⟨h1, h2⟩ := List.cons_prefix_cons.1
            (show '&' :: "#34;".toList <+: c :: ReplaceAll cs encodedQuote " ".toList from h)
          have h3 := prefix_of_normalised "#34;".toList (by decide) cs h2
          exact hnp (List.cons_prefix_cons.2 ⟨h1, h3⟩)
        · exact ih cs hcs h

theorem normalise_of_no_quote (s : Str) (h : ¬ encodedQuote <:+: s) :
    ReplaceAll s encodedQuote " ".toList = s := by
  induction s with
  | nil => rfl
  | cons c cs ih =>
    have hcs : ¬ encodedQuote <:+: cs := fun hi => h (List.infix_cons hi)
    rcases ReplaceAll_cases '&' "#34;".toList " ".toList c cs with
      ⟨rest, hs, _, _⟩ | ⟨_, hr⟩
    · exfalso
      apply h
      rw [hs]
      exact (List.prefix_append _ _).isInfix
    · have hr2 : ReplaceAll (c :: cs) encodedQuote " ".toList
          = c :: ReplaceAll cs encodedQuote " ".toList := hr
      rw [hr2, ih hcs]

/-- C14: for every text produced by the inline rendering inside
`RenderOutputData`, the final output is that text with every occurrence of
the 5-character sequence `&#34;` replaced by one space; the final output does
not contain `&#34;`, and normalising it again leaves it unchanged. -/
theorem C14_encoded_quote_normalised (template delimiter : Str)
    (templateKeyValues : GoMap Str Str) (renderedTemplate : Str)
    (h : RenderTemplateInline template "missingkey=zero".toList (patternOf delimiter).begin
      (patternOf delimiter).finish templateKeyValues = some renderedTemplate) :
    encodedQuote.length = 5 ∧
    RenderOutputData template delimiter templateKeyValues
      = some (ReplaceAll renderedTemplate encodedQuote " ".toList) ∧
    ¬ encodedQuote <:+: ReplaceAll renderedTemplate encodedQuote " ".toList ∧
    ReplaceAll (ReplaceAll renderedTemplate encodedQuote " ".toList) encodedQuote " ".toList
      = ReplaceAll renderedTemplate encodedQuote " ".toList := by
  refine ⟨rfl, ?_, normalised_no_quote _ renderedTemplate (le_refl _), ?_⟩
  · unfold RenderOutputData
    rw [h]
  · exact normalise_of_no_quote _ (normalised_no_quote _ renderedTemplate (le_refl _))

/-- C14 at the template `say ` followed by the placeholder `q` in square
brackets, with `q` mapped to `"hi"` in double quotes: the rendered text is
`say &#34;hi&#34;` and the final output `say  hi `. -/
theorem C14_encoded_quote_normalised_witness :
    RenderTemplateInline "say [[q]]".toList "missingkey=zero".toList
      (patternOf "square".toList).begin (patternOf "square".toList).finish
      [("q".toList, "\"hi\"".toList)] = some "say &#34;hi&#34;".toList ∧
    ReplaceAll "say &#34;hi&#34;".toList encodedQuote " ".toList = "say  hi ".toList ∧
    RenderOutputData "say [[q]]".toList "square".toList [("q".toList, "\"hi\"".toList)]
      = some (ReplaceAll "say &#34;hi&#34;".toList encodedQuote " ".toList) :=
  ⟨by decide, by decide,
    (C14_encoded_quote_normalised "say [[q]]".toList "square".toList
      [("q".toList, "\"hi\"".toList)] "say &#34;hi&#34;".toList (by decide)).2.1⟩

/-! ## Substituting the placeholders -/

theorem Cut_cons (c : Char) (cs sep : Str) :
    Cut (c :: cs) sep
      = match dropPrefix? sep (c :: cs) with
        | some rest => some ([], rest)
        | none => (Cut cs sep).map (fun r => (c :: r.1, r.2)) := rfl

theorem Cut_text_marker (a : Char) (l text rest : Str) (h : a ∉ text) :
    Cut (text ++ (a :: l) ++ rest) (a :: l) = some (text, rest) := by
  induction text with
  | nil =>
    show Cut (a :: (l ++ rest)) (a :: l) = some ([], rest)
    rw [Cut_cons]
    have hd : dropPrefix? (a :: l) (a :: (l ++ rest)) = some rest :=
      dropPrefix?_append (a :: l) rest
    rw [hd]
  | cons c t ih =>
    have hc : ¬ a = c := fun e => h (e ▸ List.mem_cons_self _ _)
    have ht : a ∉ t := fun e => h (List.mem_cons_of_mem _ e)
    show Cut (c :: (t ++ (a :: l) ++ rest)) (a :: l) = some (c :: t, rest)
    rw [Cut_cons]
    have hd : dropPrefix? (a :: l) (c :: (t ++ (a :: l) ++ rest)) = none := by
      simp [dropPrefix?, hc]
    rw [hd, ih ht]
    rfl

theorem Cut_none (a : Char) (l s : Str) (h : a ∉ s) : Cut s (a :: l) = none := by
  induction s with
  | nil => rfl
  | cons c t ih =>
    have hc : ¬ a = c := fun e => h (e ▸ List.mem_cons_self _ _)
    have ht : a ∉ t := fun e => h (List.mem_cons_of_mem _ e)
    rw [Cut_cons]
    have hd : dropPrefix? (a :: l) (c :: t) = none := by simp [dropPrefix?, hc]
    rw [hd, ih ht]
    rfl

theorem substitute_succ (left right : Str) (vars : GoMap Str Str) (fuel : Nat) (s : Str) :
    substitute left right vars (fuel + 1) s
      = match Cut s left with
        | none => some s
        | some (before, rest) =>
          match Cut rest right with
          | none => none
          | some (name, after) =>
            (substitute left right vars fuel after).map
              (fun r => before ++ escapeQuotes ((vars.read name).getD []) ++ r) := rfl

theorem substitute_pieces (a b : Char) (l r : Str) (vars : GoMap Str Str)
    (pieces : List (Str × Str)) (last : Str)
    (hp : ∀ pc ∈ pieces, a ∉ pc.1 ∧ b ∉ pc.2) (hl : a ∉ last) (fuel : Nat)
    (hf : pieces.length < fuel) :
    substitute (a :: l) (b :: r) vars fuel (templateOf (a :: l) (b :: r) pieces last)
      = some (substituted vars pieces last) := by
  induction pieces generalizing fuel with
  | nil =>
    cases fuel with
    | zero => simp at hf
    | succ f =>
      rw [substitute_succ]
      have hc : Cut (templateOf (a :: l) (b :: r) [] last) (a :: l) = none := by
        simpa [templateOf] using Cut_none a l last hl
      rw [hc]
      simp [substituted, templateOf]
  | cons pc rest ih =>
    cases fuel with
    | zero => simp at hf
    | succ f =>
      have hpc := hp pc (List.mem_cons_self _ _)
      have hrest : ∀ q ∈ rest, a ∉ q.1 ∧ b ∉ q.2 := fun q hq => hp q (List.mem_cons_of_mem _ hq)
      have hf2 : rest.length < f := by simpa using hf
      have e1 : templateOf (a :: l) (b :: r) (pc :: rest) last
          = pc.1 ++ (a :: l) ++ (pc.2 ++ (b :: r) ++ templateOf (a :: l) (b :: r) rest last) := by
        simp [templateOf, List.append_assoc]
      have c1 := Cut_text_marker a l pc.1
        (pc.2 ++ (b :: r) ++ templateOf (a :: l) (b :: r) rest last) hpc.1
      have c2 := Cut_text_marker b r pc.2 (templateOf (a :: l) (b :: r) rest last) hpc.2
      rw [substitute_succ, e1, c1]
      simp only [c2, ih hrest f hf2, Option.map_some']
      simp [substituted, List.append_assoc]

theorem length_templateOf (a : Char) (l right : Str) (pieces : List (Str × Str)) (last : Str) :
    pieces.length ≤ (templateOf (a :: l) right pieces last).length := by
  induction pieces with
  | nil => simp
  | cons pc rest ih =>
    have e1 : templateOf (a :: l) right (pc :: rest) last
        = pc.1 ++ (a :: l) ++ pc.2 ++ right ++ templateOf (a :: l) right rest last := by
      simp [templateOf, List.append_assoc]
    rw [e1]
    simp only [List.length_append, List.length_cons]
    omega

theorem RenderOutputData_pieces (style : Str) (a b : Char) (l r pat : Str)
    (hstyle : patternOf style = ⟨a :: l, b :: r, pat⟩) (vars : GoMap Str Str)
    (pieces : List (Str × Str)) (last : Str)
    (hp : ∀ pc ∈ pieces, a ∉ pc.1 ∧ b ∉ pc.2) (hl : a ∉ last) :
    RenderOutputData (templateOf (a :: l) (b :: r) pieces last) style vars
      = some (ReplaceAll (substituted vars pieces last) encodedQuote " ".toList) := by
  have hsub := substitute_pieces a b l r vars pieces last hp hl
    ((templateOf (a :: l) (b :: r) pieces last).length + 1)
    (Nat.lt_succ_of_le (length_templateOf a l (b :: r) pieces last))
  unfold RenderOutputData RenderTemplateInline
  simp only [hstyle, List.cons_ne_nil, or_self, if_false] at hsub ⊢
  rw [hsub]

/-- C12: the registry `Patterns` has the keys `curly` and `square`; for every
style name that is not one of its keys the lookup yields the delimiter with
empty markers, and `RenderOutputData` fails for every template and mapping:
it renders no output with some other pair of markers. -/
theorem C12_unknown_style_fails (delimiter : Str) (h : delimiter ∉ Patterns.domain)
    (template : Str) (templateKeyValues : GoMap Str Str) :
    Patterns.domain = ["curly".toList, "square".toList] ∧
    patternOf delimiter = ⟨[], [], []⟩ ∧
    RenderOutputData template delimiter templateKeyValues = none := by
  have hread : Patterns.read delimiter = none := by
    cases hr : Patterns.read delimiter with
    | none => rfl
    | some d =>
      exfalso
      apply h
      rw [GoMap.mem_domain_iff, hr]
      rfl
  have hzero : patternOf delimiter = ⟨[], [], []⟩ := by
    unfold patternOf
    rw [hread]
    rfl
  refine ⟨rfl, hzero, ?_⟩
  unfold RenderOutputData RenderTemplateInline
  rw [hzero]
  simp

/-- C12 at the style `diamond`, with the template `hello ` followed by the
placeholder `name` in double curly braces. -/
theorem C12_unknown_style_fails_witness :
    "diamond".toList ∉ Patterns.domain ∧
    RenderOutputData "hello \x7b\x7bname\x7d\x7d".toList "diamond".toList
      [("name".toList, "world".toList)] = none :=
  ⟨by decide,
    (C12_unknown_style_fails "diamond".toList (by decide)
      "hello \x7b\x7bname\x7d\x7d".toList [("name".toList, "world".toList)]).2.2⟩

/-- C13, as the specification states it, fails: with the style `curly` and
`name` mapped to `a&#34;b`, the template `hello ` followed by the placeholder
`name` is rendered to `hello a b`, which is not the value of `name` put in the
place of the placeholder. -/
theorem C13_value_with_encoded_quote_counterexample :
    RenderOutputData "hello \x7b\x7bname\x7d\x7d".toList "curly".toList
      [("name".toList, "a&#34;b".toList)] = some "hello a b".toList ∧
    RenderOutputData "hello \x7b\x7bname\x7d\x7d".toList "curly".toList
      [("name".toList, "a&#34;b".toList)] ≠ some "hello a&#34;b".toList := by
  decide

/-- C13, amended: for the styles `curly` and `square` and a template made of
texts and placeholders (no bracket character inside the texts and the names),
`RenderOutputData` raises no error and prints the template with every
placeholder replaced by the value of its name, empty for a name that is not
in the mapping, where a double quote of a value is first escaped to `&#34;`
and every `&#34;` of the result is then replaced by a space.  When the
substituted text holds no `&#34;` the output is that text, and a value without
double quote stands in it unchanged. -/
theorem C13_placeholders_replaced (style : Str)
    (hs : style = "curly".toList ∨ style = "square".toList)
    (vars : GoMap Str Str) (pieces : List (Str × Str)) (last : Str)
    (hp : ∀ pc ∈ pieces, noBracket pc.1 ∧ noBracket pc.2) (hl : noBracket last) :
    RenderOutputData
        (templateOf (patternOf style).begin (patternOf style).finish pieces last) style vars
      = some (ReplaceAll (substituted vars pieces last) encodedQuote " ".toList) ∧
    (¬ encodedQuote <:+: substituted vars pieces last →
      RenderOutputData
          (templateOf (patternOf style).begin (patternOf style).finish pieces last) style vars
        = some (substituted vars pieces last)) ∧
    (∀ v : Str, '\"' ∉ v → escapeQuotes v = v) := by
  have hmain : RenderOutputData
        (templateOf (patternOf style).begin (patternOf style).finish pieces last) style vars
      = some (ReplaceAll (substituted vars pieces last) encodedQuote " ".toList) := by
    rcases hs with hs | hs
    · subst hs
      have hcurly : patternOf "curly".toList
          = ⟨'\x7b' :: ['\x7b'], '\x7d' :: ['\x7d'],
              "\\\x7b\\\x7b(.*?)\\\x7d\\\x7d".toList⟩ := by decide
      rw [hcurly]
      exact RenderOutputData_pieces _ _ _ _ _ _ hcurly vars pieces last
        (fun pc hpc => ⟨(hp pc hpc).1.1, (hp pc hpc).2.2.1⟩) hl.1
    · subst hs
      have hsquare : patternOf "square".toList
          = ⟨'[' :: ['['], ']' :: [']'], "\\[\\[(.*?)\\]\\]".toList⟩ := by decide
      rw [hsquare]
      exact RenderOutputData_pieces _ _ _ _ _ _ hsquare vars pieces last
        (fun pc hpc => ⟨(hp pc hpc).1.2.2.1, (hp pc hpc).2.2.2.2⟩) hl.2.2.1
  refine ⟨hmain, ?_, ?_⟩
  · intro hno
    rw [hmain, normalise_of_no_quote _ hno]
  · intro v hv
    unfold escapeQuotes
    induction v with
    | nil => rfl
    | cons c cs ih =>
      have hc : ¬ c = '\"' := fun e => hv (e ▸ List.mem_cons_self _ _)
      have hcs : '\"' ∉ cs := fun e => hv (List.mem_cons_of_mem _ e)
      simp only [List.map_cons, List.flatten_cons, hc, if_false, ih hcs]
      rfl

/-- The amended C13 at the template `hello ` followed by the placeholder
`name`, style `curly`: with `name` mapped to `world` the output is
`hello world`, and with the empty mapping it is `hello `. -/
theorem C13_placeholders_replaced_witness :
    templateOf (patternOf "curly".toList).begin (patternOf "curly".toList).finish
      [("hello ".toList, "name".toList)] [] = "hello \x7b\x7bname\x7d\x7d".toList ∧
    RenderOutputData
        (templateOf (patternOf "curly".toList).begin (patternOf "curly".toList).finish
          [("hello ".toList, "name".toList)] []) "curly".toList
        [("name".toList, "world".toList)] = some "hello world".toList ∧
    RenderOutputData
        (templateOf (patternOf "curly".toList).begin (patternOf "curly".toList).finish
          [("hello ".toList, "name".toList)] []) "curly".toList [] = some "hello ".toList :=
  ⟨by decide,
    (C13_placeholders_replaced "curly".toList (Or.inl rfl) [("name".toList, "world".toList)]
      [("hello ".toList, "name".toList)] [] (by decide) (by decide)).2.1 (by decide),
    (C13_placeholders_replaced "curly".toList (Or.inl rfl) []
      [("hello ".toList, "name".toList)] [] (by decide) (by decide)).2.1 (by decide)⟩

/-! ## The order of the keys -/

theorem char_eq_of_toNat (a b : Char) (h : a.toNat = b.toNat) : a = b := by
  apply Char.ext
  apply UInt32.ext
  exact h

theorem strLt_irrefl (a : Str) : strLt a a = false := by
  induction a with
  | nil => rfl
  | cons c s ih => simp [strLt, ih]

theorem strLt_asymm (a b : Str) (h : strLt a b = true) : strLt b a = false := by
  induction a generalizing b with
  | nil => cases b <;> simp [strLt] at h ⊢
  | cons c s ih =>
    cases b with
    | nil => simp [strLt] at h
    | cons d t =>
      simp only [strLt] at h ⊢
      by_cases h1 : c.toNat < d.toNat
      · have h2 : ¬ d.toNat < c.toNat := by omega
        have h3 : ¬ d.toNat = c.toNat := by omega
        simp [h2, h3]
      · by_cases h4 : c.toNat = d.toNat
        · have h2 : ¬ d.toNat < c.toNat := by omega
          rw [if_neg h1, if_pos h4] at h
          rw [if_neg h2, if_pos h4.symm]
          exact ih t h
        · simp [h1, h4] at h

theorem strLt_trans (a b c : Str) (h1 : strLt a b = true) (h2 : strLt b c = true) :
    strLt a c = true := by
  induction a generalizing b c with
  | nil =>
    cases b with
    | nil => simp [strLt] at h1
    | cons d t =>
      cases c with
      | nil => simp [strLt] at h2
      | cons e u => simp [strLt]
  | cons x s ih =>
    cases b with
    | nil => simp [strLt] at h1
    | cons d t =>
      cases c with
      | nil => simp [strLt] at h2
      | cons e u =>
        simp only [strLt] at h1 h2 ⊢
        by_cases p1 : x.toNat < d.toNat
        · by_cases p2 : d.toNat < e.toNat
          · have : x.toNat < e.toNat := by omega
            simp [this]
          · by_cases p3 : d.toNat = e.toNat
            · have : x.toNat < e.toNat := by omega
              simp [this]
            · simp [p2, p3] at h2
        · by_cases p4 : x.toNat = d.toNat
          · rw [if_neg p1, if_pos p4] at h1
            by_cases p2 : d.toNat < e.toNat
            · have : x.toNat < e.toNat := by omega
              simp [this]
            · by_cases p3 : d.toNat = e.toNat
              · rw [if_neg p2, if_pos p3] at h2
                have q1 : ¬ x.toNat < e.toNat := by omega
                have q2 : x.toNat = e.toNat := by omega
                rw [if_neg q1, if_pos q2]
                exact ih t u h1 h2
              · simp [p2, p3] at h2
          · simp [p1, p4] at h1

theorem strLt_total (a b : Str) (h : a ≠ b) : strLt a b = true ∨ strLt b a = true := by
  induction a generalizing b with
  | nil =>
    cases b with
    | nil => exact absurd rfl h
    | cons d t => left; simp [strLt]
  | cons c s ih =>
    cases b with
    | nil => right; simp [strLt]
    | cons d t =>
      simp only [strLt]
      by_cases h1 : c.toNat < d.toNat
      · left; simp [h1]
      · by_cases h2 : d.toNat < c.toNat
        · right; simp [h2]
        · have h3 : c.toNat = d.toNat := by omega
          have hcd : c = d := char_eq_of_toNat c d h3
          subst hcd
          have hst : s ≠ t := fun e => h (by rw [e])
          simpa [h1] using ih t hst

theorem strLt_of_not_lt (x y z : Str) (h1 : strLt z x = false) (h2 : strLt z y = true) :
    strLt x y = true := by
  by_cases hxz : x = z
  · rw [hxz]; exact h2
  · rcases strLt_total x z hxz with h | h
    · exact strLt_trans x z y h h2
    · rw [h] at h1; exact absurd h1 (by simp)

theorem insertByKey_comm {α : Type} (a b : Str × α) (h : a.1 ≠ b.1) (l : List (Str × α)) :
    insertByKey a (insertByKey b l) = insertByKey b (insertByKey a l) := by
  have hab : ∀ x y : Str × α, x.1 ≠ y.1 →
      insertByKey x [y] = insertByKey y [x] := by
    intro x y hxy
    simp only [insertByKey]
    by_cases p : strLt y.1 x.1 = true
    · have q : strLt x.1 y.1 = false := strLt_asymm _ _ p
      simp [p, q]
    · have q : strLt x.1 y.1 = true := by
        rcases strLt_total x.1 y.1 hxy with r | r
        · exact r
        · exact absurd r p
      simp [p, q]
  induction l with
  | nil => exact hab a b h
  | cons c l ih =>
    by_cases pb : strLt c.1 b.1 = true
    · by_cases pa : strLt c.1 a.1 = true
      · simp only [insertByKey, pb, pa, if_true, ih]
      · have pa2 : strLt c.1 a.1 = false := by simpa using pa
        have q : strLt a.1 b.1 = true := strLt_of_not_lt _ _ _ pa2 pb
        simp [insertByKey, pb, pa2, q]
    · have pb2 : strLt c.1 b.1 = false := by simpa using pb
      by_cases pa : strLt c.1 a.1 = true
      · have q : strLt b.1 a.1 = true := strLt_of_not_lt _ _ _ pb2 pa
        simp [insertByKey, pb2, pa, q]
      · have pa2 : strLt c.1 a.1 = false := by simpa using pa
        by_cases r : strLt b.1 a.1 = true
        · have r2 : strLt a.1 b.1 = false := strLt_asymm _ _ r
          simp [insertByKey, pb2, pa2, r, r2]
        · have r3 : strLt b.1 a.1 = false := by simpa using r
          have r2 : strLt a.1 b.1 = true := by
            rcases strLt_total a.1 b.1 h with t | t
            · exact t
            · exact absurd t r
          simp [insertByKey, pb2, pa2, r3, r2]

theorem sortedEntries_perm {α : Type} (l1 l2 : List (Str × α)) (hperm : l1.Perm l2)
    (hnd : (l1.map Prod.fst).Nodup) : sortedEntries l1 = sortedEntries l2 := by
  unfold sortedEntries
  induction hperm with
  | nil => rfl
  | cons x _ ih =>
    simp only [List.foldr_cons]
    have hnd2 := hnd
    rw [List.map_cons, List.nodup_cons] at hnd2
    rw [ih hnd2.2]
  | swap x y l =>
    simp only [List.foldr_cons]
    have hxy : y.1 ≠ x.1 := by
      have := hnd
      simp only [List.map_cons, List.nodup_cons, List.mem_cons, not_or] at this
      exact this.1.1
    exact insertByKey_comm y x hxy _
  | trans p1 _ ih1 ih2 =>
    rw [ih1 hnd]
    exact ih2 ((p1.map Prod.fst).nodup_iff.1 hnd)

/-! ## The order of the scalar-params entries -/

theorem store_of_not_mem {α : Type} (m : GoMap Str α) (k : Str) (v : α) (h : k ∉ m.domain) :
    m.store k v = m ++ [(k, v)] := by
  induction m with
  | nil => rfl
  | cons e rest ih =>
    obtain ⟨k1, v1⟩ := e
    have h1 : ¬ k1 = k := fun e =>
      h (List.mem_map.2 ⟨(k1, v1), List.mem_cons_self _ _, e⟩)
    have h2 : k ∉ GoMap.domain rest := fun e => by
      obtain ⟨x, hx, hxk⟩ := List.mem_map.1 e
      exact h (List.mem_map.2 ⟨x, List.mem_cons_of_mem _ hx, hxk⟩)
    simp only [GoMap.store, h1, if_false, List.cons_append]
    exact congrArg _ (ih h2)

theorem foldl_store_distinct (pairs : List (Str × Str)) (m : GoMap Str Str)
    (hnd : (pairs.map (fun kv => TrimSpace kv.1)).Nodup)
    (hm : ∀ kv ∈ pairs, TrimSpace kv.1 ∉ m.domain) :
    pairs.foldl (fun acc kv => GoMap.store acc (TrimSpace kv.1) (TrimSpace kv.2)) m
      = m ++ pairs.map trimmedPair := by
  induction pairs generalizing m with
  | nil => simp
  | cons kv rest ih =>
    have hnd2 := hnd
    rw [List.map_cons, List.nodup_cons] at hnd2
    have hkv := hm kv (List.mem_cons_self _ _)
    rw [List.foldl_cons, store_of_not_mem m _ _ hkv, ih _ hnd2.2]
    · simp [trimmedPair]
    · intro x hx
      have hx1 : TrimSpace x.1 ∉ m.domain := hm x (List.mem_cons_of_mem _ hx)
      have hx2 : TrimSpace x.1 ≠ TrimSpace kv.1 := by
        intro e
        exact hnd2.1 (e ▸ List.mem_map.2 ⟨x, hx, rfl⟩)
      simpa [GoMap.domain, hx2] using hx1

theorem pipelineParams_distinct (pairs : List (Str × Str)) (hne : pairs ≠ [])
    (hclean : ∀ kv ∈ pairs, noCommaEq kv.1 ∧ noCommaEq kv.2)
    (hnd : (pairs.map (fun kv => TrimSpace kv.1)).Nodup) :
    pipelineParams (Split (joinEntries (pairs.map paramEntry)) ',') []
      = some (pairs.map trimmedPair) := by
  have hsplit : Split (joinEntries (pairs.map paramEntry)) ',' = pairs.map paramEntry := by
    apply Split_joinEntries
    · simpa using hne
    · intro e he
      obtain ⟨kv, hkv, rfl⟩ := List.mem_map.1 he
      exact paramEntry_no_comma kv (hclean kv hkv).1.1 (hclean kv hkv).2.1
  rw [hsplit, pipelineParams_entries pairs
    (fun kv hkv => ⟨(hclean kv hkv).1.2, (hclean kv hkv).2.2⟩) [],
    foldl_store_distinct pairs [] hnd (by simp [GoMap.domain])]
  simp

theorem insertByKey_perm {α : Type} (e : Str × α) (l : List (Str × α)) :
    (insertByKey e l).Perm (e :: l) := by
  induction l with
  | nil => exact List.Perm.refl _
  | cons f rest ih =>
    by_cases h : strLt f.1 e.1 = true
    · simp only [insertByKey, h, if_true]
      exact ((List.Perm.cons f ih).trans (List.Perm.swap e f rest))
    · simp only [insertByKey, h]
      exact List.Perm.refl _

theorem sortedEntries_perm_self {α : Type} (l : List (Str × α)) :
    (sortedEntries l).Perm l := by
  induction l with
  | nil => exact List.Perm.refl _
  | cons x rest ih =>
    exact (insertByKey_perm x (sortedEntries rest)).trans (List.Perm.cons x ih)

theorem pairwise_insertByKey {α : Type} (e : Str × α) (l : List (Str × α))
    (hl : l.Pairwise (fun x y => strLt x.1 y.1 = true)) (hne : ∀ y ∈ l, y.1 ≠ e.1) :
    (insertByKey e l).Pairwise (fun x y => strLt x.1 y.1 = true) := by
  induction l with
  | nil => simp [insertByKey]
  | cons f rest ih =>
    rw [List.pairwise_cons] at hl
    have hrest : ∀ y ∈ rest, y.1 ≠ e.1 := fun y hy => hne y (List.mem_cons_of_mem _ hy)
    by_cases h : strLt f.1 e.1 = true
    · simp only [insertByKey, h, if_true, List.pairwise_cons]
      refine ⟨?_, ih hl.2 hrest⟩
      intro y hy
      rcases List.mem_cons.1 ((insertByKey_perm e rest).mem_iff.1 hy) with e1 | e1
      · rw [e1]; exact h
      · exact hl.1 y e1
    · have hfe : strLt e.1 f.1 = true := by
        rcases strLt_total e.1 f.1 (fun e2 => hne f (List.mem_cons_self _ _) e2.symm) with t | t
        · exact t
        · exact absurd t h
      have hf : strLt f.1 e.1 = false := by simpa using h
      have e0 : insertByKey e (f :: rest) = e :: f :: rest := by simp [insertByKey, hf]
      rw [e0, List.pairwise_cons]
      refine ⟨?_, List.pairwise_cons.2 hl⟩
      intro y hy
      rcases List.mem_cons.1 hy with e1 | e1
      · rw [e1]; exact hfe
      · exact strLt_trans _ _ _ hfe (hl.1 y e1)

theorem pairwise_sortedEntries {α : Type} (l : List (Str × α))
    (hnd : (l.map Prod.fst).Nodup) :
    (sortedEntries l).Pairwise (fun x y => strLt x.1 y.1 = true) := by
  induction l with
  | nil => simp [sortedEntries]
  | cons x rest ih =>
    rw [List.map_cons, List.nodup_cons] at hnd
    apply pairwise_insertByKey x (sortedEntries rest) (ih hnd.2)
    intro y hy e
    have hy2 : y ∈ rest := (sortedEntries_perm_self rest).mem_iff.1 hy
    exact hnd.1 (e ▸ List.mem_map.2 ⟨y, hy2, rfl⟩)

theorem renderManifest_params (ns : Str) (dt : Time) (req : CreateRevisionRunRequest)
    (p : Pipelinerun) (e1 e2 : Str) (m1 m2 : GoMap Str Str)
    (h1 : pipelineParams (Split e1 ',') [] = some m1)
    (h2 : pipelineParams (Split e2 ',') [] = some m2)
    (hs : sortedEntries m1 = sortedEntries m2) :
    renderManifest ns dt req { p with Params := e1 }
      = renderManifest ns dt req { p with Params := e2 } := by
  unfold renderManifest buildPipelineRun
  simp only [h1, h2]
  cases listPipelineParams (Split p.Listparams ',') [] with
  | none => rfl
  | some lists =>
    cases pipelineWorkspaces (Split p.Workspaces ',') [] with
    | none => rfl
    | some wss =>
      cases slice04 req.CommitId with
      | none => rfl
      | some c4 =>
        simp only [Option.map_some', PipelineRunTemplate, templateParams, hs]
        rfl

theorem renderLoop_congr (ns : Str) (dt : Time) (req : CreateRevisionRunRequest)
    (pre post : List Pipelinerun) (p q : Pipelinerun) (hs : p.Stage = q.Stage)
    (hm : renderManifest ns dt req p = renderManifest ns dt req q)
    (state : GoMap Int (List Str) × List Str) :
    renderLoop ns dt req (pre ++ p :: post) state
      = renderLoop ns dt req (pre ++ q :: post) state := by
  induction pre generalizing state with
  | nil =>
    obtain ⟨m, stages⟩ := state
    simp only [List.nil_append, renderLoop, hs, hm]
  | cons x rest ih =>
    obtain ⟨m, stages⟩ := state
    simp only [List.cons_append, renderLoop]
    cases renderManifest ns dt req x with
    | none => rfl
    | some manifest => exact ih _

theorem renderLoop_withRuns (ns : Str) (dt : Time) (req : CreateRevisionRunRequest)
    (r runs : List Pipelinerun) (state : GoMap Int (List Str) × List Str) :
    renderLoop ns dt (withRuns req r) runs state = renderLoop ns dt req runs state := by
  induction runs generalizing state with
  | nil => rfl
  | cons x rest ih =>
    obtain ⟨m, stages⟩ := state
    simp only [renderLoop, renderManifest_withRuns]
    cases renderManifest ns dt req x with
    | none => rfl
    | some manifest => exact ih _

theorem RenderPipelineRuns_withRuns (ns : Str) (dt : Time) (req : CreateRevisionRunRequest)
    (runs : List Pipelinerun) :
    RenderPipelineRuns ns dt (withRuns req runs)
      = match renderLoop ns dt req runs ([], []) with
        | none => none
        | some (renderedPipelineruns, allStages) =>
          some (renderedPipelineruns, UniqueSlice allStages) := by
  unfold RenderPipelineRuns
  rw [renderLoop_withRuns]
  rfl

theorem buildPipelineRun_params (ns : Str) (dt : Time) (req : CreateRevisionRunRequest)
    (p : Pipelinerun) (pr : PipelineRun) (h : buildPipelineRun ns dt req p = some pr) :
    pipelineParams (Split p.Params ',') [] = some pr.Params := by
  unfold buildPipelineRun at h
  cases h1 : pipelineParams (Split p.Params ',') [] with
  | none => simp [h1] at h
  | some a =>
    cases h2 : listPipelineParams (Split p.Listparams ',') [] with
    | none => simp [h1, h2] at h
    | some b =>
      cases h3 : pipelineWorkspaces (Split p.Workspaces ',') [] with
      | none => simp [h1, h2, h3] at h
      | some c =>
        cases h4 : slice04 req.CommitId with
        | none => simp [h1, h2, h3, h4] at h
        | some c4 =>
          simp only [h1, h2, h3, h4, Option.some.injEq] at h
          rw [← h]

/-- C18: for a fixed time and namespace, two requests that differ only in
that the scalar-params entries of one invocation are permuted, with pairwise
distinct trimmed keys, have the same outcome of `RenderPipelineRuns`.  The
two parameter maps are visited by the template in one and the same order:
every trimmed pair once, by strictly increasing key; and the manifest of the
invocation has, right after `params:`, one block `- name: k`, `value: v` per
visited pair, in that order.  The invocation is rendered when it is
well-formed and the commit identifier has 4 bytes. -/
theorem C18_params_order_irrelevant (pipelineNamespace : Str) (dt : Time)
    (gRPCRequest : CreateRevisionRunRequest) (pre post : List Pipelinerun) (p : Pipelinerun)
    (pairs1 pairs2 : List (Str × Str)) (hperm : pairs1.Perm pairs2) (hne : pairs1 ≠ [])
    (hclean : ∀ kv ∈ pairs1, noCommaEq kv.1 ∧ noCommaEq kv.2)
    (hnd : (pairs1.map (fun kv => TrimSpace kv.1)).Nodup) :
    RenderPipelineRuns pipelineNamespace dt
        (withRuns gRPCRequest (pre ++ withParams p pairs1 :: post))
      = RenderPipelineRuns pipelineNamespace dt
        (withRuns gRPCRequest (pre ++ withParams p pairs2 :: post)) ∧
    (∃ m1 m2,
      pipelineParams (Split (withParams p pairs1).Params ',') [] = some m1 ∧
      pipelineParams (Split (withParams p pairs2).Params ',') [] = some m2 ∧
      sortedEntries m1 = sortedEntries m2 ∧
      (sortedEntries m1).Perm (pairs1.map trimmedPair) ∧
      (sortedEntries m1).Pairwise (fun x y => strLt x.1 y.1 = true)) ∧
    renderManifest pipelineNamespace dt gRPCRequest (withParams p pairs1)
      = renderManifest pipelineNamespace dt gRPCRequest (withParams p pairs2) ∧
    (∀ pr, buildPipelineRun pipelineNamespace dt gRPCRequest (withParams p pairs1) = some pr →
      renderManifest pipelineNamespace dt gRPCRequest (withParams p pairs1)
        = some (templateHead ++ metadataName pr ++ templateLabels pr ++
            ((sortedEntries (pairs1.map trimmedPair)).map
              (fun e => "\n  - name: ".toList ++ e.1 ++ "\n    value: ".toList ++ e.2)).flatten ++
            (if pr.ListParams.isEmpty then []
             else ((sortedEntries pr.ListParams).map templateListParam).flatten) ++
            templateWorkspaces pr)) ∧
    ((withParams p pairs1).wellFormed → 4 ≤ byteLength gRPCRequest.CommitId →
      ∃ pr, buildPipelineRun pipelineNamespace dt gRPCRequest (withParams p pairs1)
        = some pr) := by
  have hne2 : pairs2 ≠ [] := fun e => hne (List.Perm.eq_nil (e ▸ hperm))
  have hclean2 : ∀ kv ∈ pairs2, noCommaEq kv.1 ∧ noCommaEq kv.2 :=
    fun kv hkv => hclean kv (hperm.mem_iff.2 hkv)
  have hnd2 : (pairs2.map (fun kv => TrimSpace kv.1)).Nodup :=
    ((hperm.map (fun kv => TrimSpace kv.1)).nodup_iff).1 hnd
  have h1 := pipelineParams_distinct pairs1 hne hclean hnd
  have h2 := pipelineParams_distinct pairs2 hne2 hclean2 hnd2
  have hkeys : ((pairs1.map trimmedPair).map Prod.fst).Nodup := by
    simpa [List.map_map, trimmedPair, Function.comp_def] using hnd
  have hs : sortedEntries (pairs1.map trimmedPair) = sortedEntries (pairs2.map trimmedPair) :=
    sortedEntries_perm _ _ (hperm.map trimmedPair) hkeys
  have hm : renderManifest pipelineNamespace dt gRPCRequest (withParams p pairs1)
      = renderManifest pipelineNamespace dt gRPCRequest (withParams p pairs2) :=
    renderManifest_params pipelineNamespace dt gRPCRequest p _ _ _ _ h1 h2 hs
  refine ⟨?_, ⟨_, _, h1, h2, hs, sortedEntries_perm_self _, pairwise_sortedEntries _ hkeys⟩,
    hm, ?_, ?_⟩
  · rw [RenderPipelineRuns_withRuns, RenderPipelineRuns_withRuns]
    rw [renderLoop_congr pipelineNamespace dt gRPCRequest pre post (withParams p pairs1)
      (withParams p pairs2) rfl hm]
  · intro pr hpr
    have hparams : pipelineParams (Split (joinEntries (pairs1.map paramEntry)) ',') []
        = some pr.Params := buildPipelineRun_params _ _ _ _ pr hpr
    have hp2 : pr.Params = pairs1.map trimmedPair := Option.some.inj (hparams.symm.trans h1)
    have hblock : templateParam
        = fun e => "\n  - name: ".toList ++ e.1 ++ "\n    value: ".toList ++ e.2 :=
      funext (fun _ => rfl)
    have hman : renderManifest pipelineNamespace dt gRPCRequest (withParams p pairs1)
        = some (PipelineRunTemplate pr) := by
      unfold renderManifest
      rw [hpr]
      rfl
    rw [hman]
    unfold PipelineRunTemplate templateParams
    rw [hp2, hblock]
    simp only [List.append_assoc]
  · intro hwf hc
    obtain ⟨pr, hpr, _⟩ :=
      buildPipelineRun_some_bytes pipelineNamespace dt gRPCRequest _ hwf hc
    exact ⟨pr, hpr⟩

/-- C18 at an invocation with the entries `b=2`, `a=1` and with the entries
`a=1`, `b=2`: the two requests have the same result, and both manifests have
the block of `a` before the block of `b`. -/
theorem C18_params_order_irrelevant_witness :
    ([("b".toList, "2".toList), ("a".toList, "1".toList)] : List (Str × Str)).Perm
      [("a".toList, "1".toList), ("b".toList, "2".toList)] ∧
    (pipelineParams (Split "b=2,a=1".toList ',') []).map sortedEntries
      = some [("a".toList, "1".toList), ("b".toList, "2".toList)] ∧
    (buildPipelineRun "ns".toList exampleTime (exampleRequest [])
        (withParams (exampleRun "build" 1)
          [("b".toList, "2".toList), ("a".toList, "1".toList)])).map templateParams
      = some ("\n  - name: a\n    value: 1\n  - name: b\n    value: 2".toList ++
          "\n  - name: l\n    value: \n      - 1\n      - 2".toList) ∧
    RenderPipelineRuns "ns".toList exampleTime
        (withRuns (exampleRequest []) ([] ++ withParams (exampleRun "build" 1)
          [("b".toList, "2".toList), ("a".toList, "1".toList)] :: []))
      = RenderPipelineRuns "ns".toList exampleTime
        (withRuns (exampleRequest []) ([] ++ withParams (exampleRun "build" 1)
          [("a".toList, "1".toList), ("b".toList, "2".toList)] :: [])) :=
  ⟨List.Perm.swap _ _ _, by decide, by decide,
    (C18_params_order_irrelevant "ns".toList exampleTime (exampleRequest []) [] []
      (exampleRun "build" 1) [("b".toList, "2".toList), ("a".toList, "1".toList)]
      [("a".toList, "1".toList), ("b".toList, "2".toList)] (List.Perm.swap _ _ _)
      (by decide) (by decide) (by decide)).1⟩

end Rendering
